import Mathlib

/-!
Shallow embedding of the household-bills ledger engine.

The definitions below translate the pure calculation functions of the
repository (src/lib/settlement-utils in auth.tsx part 2, src/lib/bill-utils,
src/lib/types) into Lean:

  - JS numbers are modelled as exact rationals.
  - JS objects used as maps from member id to number are modelled as
    association lists built with objSet, which mirrors JS property
    assignment (replace in place, append when new).
  - JS string comparison (used by the pairwise settlement loop) is modelled
    by strLt, lexicographic comparison of the character lists.
  - The only statement in the engine that can throw is the property access
    billDebts[coveredId][payerId].push in the coverage branch of
    calculateSettlementsWithBreakdown: billDebts has an inner list exactly
    for ordered pairs of distinct roster member ids, so the access throws a
    TypeError for any other pair.  That fallible step is modelled with
    Except; every other function is total, as the code is.
  - JS Math.round is floor (x + 1/2); values stored at object keys that are
    never read back (NaN noise on non-roster keys) are dropped, which is
    observationally equal.
-/

namespace HouseholdBills

/-- JS Math.round(x*100)/100, used by the engine at output boundaries. -/
def round2 (x : ℚ) : ℚ := ((⌊x * 100 + 1/2⌋ : ℤ) : ℚ) / 100

/-- Lexicographic comparison of character lists, the order JS uses for
its string comparison operators. -/
def strLtb : List Char → List Char → Bool
  | [], [] => false
  | [], _ :: _ => true
  | _ :: _, [] => false
  | a :: as, b :: bs => if a < b then true else if a = b then strLtb as bs else false

/-- JS string comparison s less-than t. -/
def strLt (s t : String) : Bool := strLtb s.data t.data

/-- A JS object with number values, as an insertion-ordered association list. -/
abbrev Obj := List (String × ℚ)

/-- Property read, returning none for a missing key. -/
def objGet (m : Obj) (k : String) : Option ℚ := (m.find? (fun p => p.1 = k)).map Prod.snd

/-- Property read with the JS pattern m[k] or-else 0. -/
def objGetD (m : Obj) (k : String) : ℚ := (objGet m k).getD 0

/-- The JS test k in m. -/
def objHas (m : Obj) (k : String) : Bool := m.any (fun p => p.1 = k)

/-- JS property assignment m[k] = v: overwrite in place, append when new. -/
def objSet (m : Obj) (k : String) (v : ℚ) : Obj :=
  if objHas m k then m.map (fun p => if p.1 = k then (k, v) else p) else m ++ [(k, v)]

/-- Object.values(m).reduce((sum, amt) => sum + amt, 0). -/
def objValsSum (m : Obj) : ℚ := (m.map Prod.snd).foldl (fun s v => s + v) 0

/-- Truthiness of a nullable JS string (null and the empty string are falsy). -/
def strTruthy : Option String → Bool
  | none => false
  | some s => !s.isEmpty

/-- Member of the household roster (fields the engine reads). -/
structure Person where
  id : String
  name : String
  mortgageShare : ℚ
deriving DecidableEq

/-- A line of an itemized receipt. -/
structure ReceiptItem where
  id : String
  name : String
  amount : ℚ
  assignedTo : List String
deriving DecidableEq

/-- Explicit record that payerId paid amount to cover the share of coveredId. -/
structure CoverageAllocation where
  payerId : String
  coveredId : String
  amount : ℚ
deriving DecidableEq

/-- The type tag of a settlement record. -/
inductive RecordType
  | forgivenKind
  | paidKind
deriving DecidableEq

/-- Record of a forgiven or externally paid debt between members. -/
structure SettlementRecord where
  id : String
  fromId : String
  toId : String
  amount : ℚ
  type : RecordType
deriving DecidableEq

/-- The five split policies. -/
inductive SplitType
  | mortgage
  | even
  | percentage
  | custom
  | items
deriving DecidableEq

/-- A bill; only the fields the ledger engine reads are modelled. -/
structure Bill where
  id : String
  name : String
  amount : ℚ
  dueDate : String
  category : String
  splitType : SplitType
  paidBy : Option String
  paidContributions : Option Obj
  creditEarned : Option Obj
  coverageAllocations : Option (List CoverageAllocation)
  isPaid : Bool
  customSplits : Option Obj
  items : Option (List ReceiptItem)
deriving DecidableEq

/-- src/lib/bill-utils calculateBillShares, translated branch by branch. -/
def calculateBillShares (bill : Bill) (members : List Person) : Obj :=
  match bill.splitType with
  | .mortgage => members.foldl (fun sh m => objSet sh m.id m.mortgageShare) []
  | .even =>
      let evenShare := bill.amount / (members.length : ℚ)
      members.foldl (fun sh m => objSet sh m.id evenShare) []
  | .percentage =>
      match bill.customSplits with
      | some cs => members.foldl (fun sh m => objSet sh m.id (objGetD cs m.id / 100 * bill.amount)) []
      | none => []
  | .custom =>
      match bill.customSplits with
      | some cs => cs.foldl (fun sh p => objSet sh p.1 p.2) []
      | none => []
  | .items =>
      match bill.items with
      | some its =>
          let init := members.foldl (fun sh m => objSet sh m.id 0) []
          its.foldl (fun sh it =>
            if it.assignedTo.length > 0 then
              let perPerson := it.amount / (it.assignedTo.length : ℚ)
              it.assignedTo.foldl (fun sh2 pid => objSet sh2 pid (objGetD sh2 pid + perPerson)) sh
            else sh) init
      | none => []

/-- src/lib/bill-utils getBillContributions.  A present paidContributions
object is returned verbatim even when empty, because an empty JS object is
truthy; paidBy is consulted only when paidContributions is absent, and an
empty paidBy string is falsy. -/
def getBillContributions (bill : Bill) : Obj :=
  match bill.paidContributions with
  | some m => m
  | none =>
      match bill.paidBy with
      | some p => if p.isEmpty then [] else [(p, bill.amount)]
      | none => []

/-- src/lib/bill-utils isBillFullyPaid. -/
def isBillFullyPaid (bill : Bill) (tolerance : ℚ) : Bool :=
  objValsSum (getBillContributions bill) ≥ bill.amount - tolerance

/-- The derived status of a bill. -/
inductive BillStatus
  | pending
  | paid
  | partiallyPaid
  | overdue
deriving DecidableEq

/-- src/lib/types getBillStatus.  The JS code compares
new Date(bill.dueDate) with new Date(); the parse of the due date string and
the current clock instant are abstracted into the oracle dueBeforeNow.
The third constructor partiallyPaid renders the literal partial status. -/
def getBillStatus (dueBeforeNow : String → Bool) (bill : Bill) : BillStatus :=
  if bill.isPaid then .paid
  else
    match bill.paidContributions with
    | some pc =>
        let totalPaid := objValsSum pc
        if 0 < totalPaid ∧ totalPaid < bill.amount then .partiallyPaid
        else if dueBeforeNow bill.dueDate then .overdue
        else .pending
    | none => if dueBeforeNow bill.dueDate then .overdue else .pending

/-- The shared qualifying-bill filter of calculateBalances and
calculateSettlementsWithBreakdown: isPaid with a truthy payer field, or some
strictly positive paid contribution. -/
def billQualifies (bill : Bill) : Bool :=
  (bill.isPaid && (strTruthy bill.paidBy || bill.paidContributions.isSome)) ||
  (match bill.paidContributions with
   | some l => l.any (fun p => 0 < p.2)
   | none => false)

/-- One row of the calculateBalances output. -/
structure BalanceOut where
  personId : String
  personName : String
  owes : ℚ
deriving DecidableEq

/-- Pointwise addition into the balances accumulator (JS balances[k] += v). -/
def updAdd (f : String → ℚ) (k : String) (v : ℚ) : String → ℚ :=
  fun x => if x = k then f x + v else f x

/-- The per-bill body of the calculateBalances loop. -/
def applyBillBalance (members : List Person) (f : String → ℚ) (bill : Bill) : String → ℚ :=
  let shares := calculateBillShares bill members
  let contributions := getBillContributions bill
  let totalPaid := objValsSum contributions
  let totalShares := objValsSum shares
  if totalPaid < 1/100 ∨ totalShares < 1/100 then f
  else
    let paidRat := min (totalPaid / totalShares) 1
    let f1 := shares.foldl (fun g p => updAdd g p.1 (p.2 * paidRat - objGetD contributions p.1)) f
    contributions.foldl (fun g p => if objHas shares p.1 then g else updAdd g p.1 (-p.2)) f1

/-- Settlement-utils calculateBalances: fold the qualifying bills into a
per-member balance map, then report each roster member rounded to cents. -/
def calculateBalances (bills : List Bill) (members : List Person) : List BalanceOut :=
  let f := (bills.filter billQualifies).foldl (applyBillBalance members) (fun _ => 0)
  members.map (fun m => ⟨m.id, m.name, round2 (f m.id)⟩)

/-- One entry of a settlement breakdown. -/
structure SettlementBreakdown where
  billId : String
  billName : String
  category : String
  dueDate : String
  totalAmount : ℚ
  theirShare : ℚ
  creditorPaid : ℚ
deriving DecidableEq

/-- One attributed debt edge: debtor owes creditor the item amount.  The
flat chronological list of edges models the nested billDebts record; the
per-pair lists are recovered by filtering, which preserves push order. -/
structure Edge where
  debtor : String
  creditor : String
  item : SettlementBreakdown
deriving DecidableEq

/-- billDebts[d][c].push(item): the inner array exists exactly when d and c
are roster ids and differ, otherwise the JS code throws a TypeError. -/
def pushDebt (ids : List String) (edges : List Edge) (d c : String)
    (it : SettlementBreakdown) : Except String (List Edge) :=
  if d ∈ ids ∧ c ∈ ids ∧ d ≠ c then .ok (edges ++ [⟨d, c, it⟩])
  else .error "TypeError: cannot read properties of undefined"

/-- bill.creditEarned optional-chained lookup or-else 0. -/
def creditOf (bill : Bill) (pid : String) : ℚ := objGetD (bill.creditEarned.getD []) pid

/-- bill.coverageAllocations exists and has positive length. -/
def hasCoverage (bill : Bill) : Bool :=
  match bill.coverageAllocations with
  | some l => decide (l.length > 0)
  | none => false

/-- The proportional-inference fallback of the resolver for a bill without
coverage allocations (the code after the coverage early return). -/
def inferDebts (members : List Person) (shares : Obj) (edges : List Edge) (bill : Bill) :
    Except String (List Edge) :=
  let ids := members.map Person.id
  let contributions := getBillContributions bill
  let totalPaid := objValsSum contributions
  let totalShares := objValsSum shares
  if totalPaid < 1/100 ∨ totalShares < 1/100 then .ok edges
  else if totalPaid < totalShares * (99/100) then .ok edges
  else
    let nets : String → ℚ := fun pid =>
      objGetD shares pid - (objGetD contributions pid - creditOf bill pid)
    let billDebtors := members.filter (fun m => decide (nets m.id > 1/100))
    let billCreditors := members.filter (fun m => decide (nets m.id < -(1/100)))
    let totalOwed := billCreditors.foldl (fun s c => s + |nets c.id|) 0
    if totalOwed < 1/100 then .ok edges
    else
      billDebtors.foldlM (fun es debtor =>
        billCreditors.foldlM (fun es2 creditor =>
          let amount := nets debtor.id * (|nets creditor.id| / totalOwed)
          if amount > 1/100 then
            pushDebt ids es2 debtor.id creditor.id
              ⟨bill.id, bill.name, bill.category, bill.dueDate, bill.amount,
               objGetD shares debtor.id, amount⟩
          else .ok es2) es) edges

/-- The per-bill body of the resolver loop: coverage allocations when
present and non-empty, otherwise proportional inference. -/
def processBill (members : List Person) (edges : List Edge) (bill : Bill) :
    Except String (List Edge) :=
  let shares := calculateBillShares bill members
  let ids := members.map Person.id
  if hasCoverage bill then
    (bill.coverageAllocations.getD []).foldlM (fun es cov =>
      if cov.amount > 1/100 then
        pushDebt ids es cov.coveredId cov.payerId
          ⟨bill.id, bill.name, bill.category, bill.dueDate, bill.amount,
           objGetD shares cov.coveredId, cov.amount⟩
      else .ok es) edges
  else inferDebts members shares edges bill

/-- Step 1 of the resolver: fold every qualifying bill into the debt graph. -/
def buildDebts (bills : List Bill) (members : List Person) : Except String (List Edge) :=
  (bills.filter billQualifies).foldlM (processBill members) []

/-- The forgiven-amount lookup closed over the optional record list. -/
def getForgivenBetween (records : Option (List SettlementRecord)) (fromId toId : String) : ℚ :=
  match records with
  | none => 0
  | some rs =>
      (rs.filter (fun r => r.fromId = fromId && r.toId = toId)).foldl (fun s r => s + r.amount) 0

/-- The billDebts[dId][cId] list, recovered from the flat edge list. -/
def pairDebts (edges : List Edge) (dId cId : String) : List SettlementBreakdown :=
  (edges.filter (fun e => e.debtor = dId && e.creditor = cId)).map Edge.item

/-- reduce((sum, b) => sum + b.creditorPaid, 0). -/
def sumPaid (l : List SettlementBreakdown) : ℚ := l.foldl (fun s b => s + b.creditorPaid) 0

/-- memberMap lookup: Object.fromEntries keeps the last entry per key. -/
def memberName (members : List Person) (pid : String) : String :=
  ((members.filter (fun m => m.id = pid)).map Person.name).getLastD ""

/-- An emitted settlement.  The JS from and to fields are fromName and
toName here; grossOwed is always set by the code, the other three extras
are conditional. -/
structure Settlement where
  fromName : String
  toName : String
  amount : ℚ
  breakdown : List SettlementBreakdown
  offsetBreakdown : Option (List SettlementBreakdown)
  grossOwed : ℚ
  grossOffset : Option ℚ
  forgiven : Option ℚ
deriving DecidableEq

/-- The body of the pair loop after the ordering and processed-set guards:
net the two directions against the forgiven amounts and emit at most one
settlement. -/
def emitPair (members : List Person) (records : Option (List SettlementRecord))
    (edges : List Edge) (a b : Person) : Option Settlement :=
  let aOwesB := pairDebts edges a.id b.id
  let bOwesA := pairDebts edges b.id a.id
  let totalAOwesB := sumPaid aOwesB
  let totalBOwesA := sumPaid bOwesA
  let forgivenAToB := getForgivenBetween records a.id b.id
  let forgivenBToA := getForgivenBetween records b.id a.id
  let netAmount := totalAOwesB - forgivenAToB - (totalBOwesA - forgivenBToA)
  if |netAmount| > 1/100 then
    if netAmount > 0 then
      some ⟨memberName members a.id, memberName members b.id, round2 netAmount, aOwesB,
            if bOwesA.length > 0 then some bOwesA else none,
            round2 totalAOwesB,
            if bOwesA.length > 0 then some (round2 totalBOwesA) else none,
            if forgivenAToB > 1/100 then some (round2 forgivenAToB) else none⟩
    else
      some ⟨memberName members b.id, memberName members a.id, round2 |netAmount|, bOwesA,
            if aOwesB.length > 0 then some aOwesB else none,
            round2 totalBOwesA,
            if aOwesB.length > 0 then some (round2 totalAOwesB) else none,
            if forgivenBToA > 1/100 then some (round2 forgivenBToA) else none⟩
  else none

/-- The processed-set key of an ordered pair. -/
def pairKey (a b : Person) : String := a.id ++ "-" ++ b.id

/-- One iteration of the inner pair loop: skip unless the first id is
strictly smaller, skip already-processed keys, then mark and emit. -/
def settleStep (members : List Person) (records : Option (List SettlementRecord))
    (edges : List Edge) (st : List String × List Settlement) (a b : Person) :
    List String × List Settlement :=
  if strLt a.id b.id then
    let key := pairKey a b
    if key ∈ st.1 then st
    else (st.1 ++ [key],
          match emitPair members records edges a b with
          | some s => st.2 ++ [s]
          | none => st.2)
  else st

/-- The inner forEach over the full roster for a fixed first member. -/
def settleInner (members : List Person) (records : Option (List SettlementRecord))
    (edges : List Edge) (a : Person) :
    List Person → List String × List Settlement → List String × List Settlement
  | [], st => st
  | b :: bs, st => settleInner members records edges a bs (settleStep members records edges st a b)

/-- The outer forEach over the roster. -/
def settleOuter (members : List Person) (records : Option (List SettlementRecord))
    (edges : List Edge) :
    List Person → List String × List Settlement → List String × List Settlement
  | [], st => st
  | a :: rest, st =>
      settleOuter members records edges rest (settleInner members records edges a members st)

/-- Settlement-utils calculateSettlementsWithBreakdown: build the per-bill
debt graph (which can throw), then net every pair once. -/
def calculateSettlementsWithBreakdown (bills : List Bill) (members : List Person)
    (settlementRecords : Option (List SettlementRecord)) : Except String (List Settlement) :=
  match buildDebts bills members with
  | .error e => .error e
  | .ok edges => .ok (settleOuter members settlementRecords edges members ([], [])).2

/-- The projection emitted by calculateSettlements. -/
structure SimpleSettlement where
  fromName : String
  toName : String
  amount : ℚ
deriving DecidableEq

/-- The field projection used by calculateSettlements. -/
def toSimple (s : Settlement) : SimpleSettlement := ⟨s.fromName, s.toName, s.amount⟩

/-- Settlement-utils calculateSettlements: the breakdown result projected to
from, to and amount. -/
def calculateSettlements (bills : List Bill) (members : List Person)
    (settlementRecords : Option (List SettlementRecord)) : Except String (List SimpleSettlement) :=
  match calculateSettlementsWithBreakdown bills members settlementRecords with
  | .error e => .error e
  | .ok l => .ok (l.map toSimple)


/-! ## Decidability and string-order facts used by the verification -/

instance {ε α : Type} [DecidableEq ε] [DecidableEq α] : DecidableEq (Except ε α) := fun a b =>
  match a, b with
  | .error e, .error f =>
      if h : e = f then .isTrue (by rw [h]) else .isFalse (fun c => h (by injection c))
  | .error _, .ok _ => .isFalse (fun c => Except.noConfusion c)
  | .ok _, .error _ => .isFalse (fun c => Except.noConfusion c)
  | .ok x, .ok y =>
      if h : x = y then .isTrue (by rw [h]) else .isFalse (fun c => h (by injection c))

theorem strLtb_iff : ∀ (as bs : List Char), strLtb as bs = true ↔ as < bs := by
  intro as
  induction as with
  | nil =>
    intro bs
    cases bs with
    | nil => simp only [strLtb, Bool.false_eq_true, false_iff]; intro h; cases h
    | cons b bs => simp only [strLtb, true_iff]; exact List.Lex.nil
  | cons a as ih =>
    intro bs
    cases bs with
    | nil => simp only [strLtb, Bool.false_eq_true, false_iff]; intro h; cases h
    | cons b bs =>
      simp only [strLtb]
      by_cases hab : a < b
      · simp only [hab, if_true, true_iff]; exact List.Lex.rel hab
      · by_cases heq : a = b
        · subst heq
          rw [if_neg (lt_irrefl a), if_pos rfl, ih bs]
          constructor
          · intro h; exact List.Lex.cons h
          · intro h
            cases h with
            | cons h => exact h
            | rel h => exact absurd h (lt_irrefl a)
        · simp only [hab, heq, if_false, Bool.false_eq_true, false_iff]
          intro h
          cases h with
          | cons h => exact heq rfl
          | rel h => exact hab h

theorem strLt_antisymm_eq (s t : String) (h1 : strLt s t = false) (h2 : strLt t s = false) :
    s = t := by
  apply String.ext
  have n1 : ¬ (s.data < t.data) := by
    intro h; rw [← strLtb_iff] at h; rw [strLt] at h1; rw [h1] at h; cases h
  have n2 : ¬ (t.data < s.data) := by
    intro h; rw [← strLtb_iff] at h; rw [strLt] at h2; rw [h2] at h; cases h
  exact le_antisymm (not_lt.mp n2) (not_lt.mp n1)

theorem strLt_asymm {s t : String} (h : strLt s t = true) : strLt t s = false := by
  have h1 : s.data < t.data := (strLtb_iff _ _).mp h
  rw [strLt]
  by_contra hc
  have hb : strLtb t.data s.data = true := by
    revert hc; cases strLtb t.data s.data <;> simp
  exact absurd h1 (lt_asymm ((strLtb_iff _ _).mp hb))

theorem strLt_ne {s t : String} (h : strLt s t = true) : s ≠ t := by
  intro he
  subst he
  have h1 : s.data < s.data := (strLtb_iff _ _).mp h
  exact absurd h1 (lt_irrefl _)

theorem strLt_total_of_ne {s t : String} (h : s ≠ t) :
    strLt s t = true ∨ strLt t s = true := by
  cases h1 : strLt s t with
  | true => exact Or.inl rfl
  | false =>
    cases h2 : strLt t s with
    | true => exact Or.inr rfl
    | false => exact absurd (strLt_antisymm_eq s t h1 h2) h


/-! ## Pairwise netting: spec-side description and loop characterization -/

/-- The ordered pairs the claim quantifies over for a fixed first member:
every roster member with a strictly larger id. -/
def pairsFrom (a : Person) (bs : List Person) : List (Person × Person) :=
  (bs.filter (fun b => strLt a.id b.id)).map (fun b => (a, b))

/-- Each unordered pair of distinct-id members, oriented by increasing id. -/
def orderedPairs (members : List Person) : List (Person × Person) :=
  members.flatMap (fun a => pairsFrom a members)

/-- The processed-set keys of distinct ordered pairs are distinct.  This
holds for any roster whose ids avoid the dash character, but can fail in
general because the key is built by dash concatenation. -/
def KeyInjOn (members : List Person) : Prop :=
  ∀ a ∈ members, ∀ b ∈ members, ∀ a2 ∈ members, ∀ b2 ∈ members,
    strLt a.id b.id = true → strLt a2.id b2.id = true →
    pairKey a b = pairKey a2 b2 → a = a2 ∧ b = b2

instance (members : List Person) : Decidable (KeyInjOn members) := by
  unfold KeyInjOn
  infer_instance

/-- Claim C1 net amount for the pair (A, B):
(A-to-B attributed minus forgiven A-to-B) minus (B-to-A attributed minus
forgiven B-to-A). -/
def specNet (records : Option (List SettlementRecord)) (edges : List Edge) (a b : Person) : ℚ :=
  (sumPaid (pairDebts edges a.id b.id) - getForgivenBetween records a.id b.id)
    - (sumPaid (pairDebts edges b.id a.id) - getForgivenBetween records b.id a.id)

/-- Claim C1 per-pair emission rule, written from the claim text: emit one
settlement exactly when the absolute net exceeds one cent; the debtor is
chosen by the sign of the net; the amount is the rounded absolute net; the
breakdown is the winning direction; offsetBreakdown and grossOffset are
present exactly when the reverse direction has items; grossOwed is the
rounded winning gross; forgiven is present exactly when the winning-side
forgiven sum exceeds one cent. -/
def specEmitPair (members : List Person) (records : Option (List SettlementRecord))
    (edges : List Edge) (a b : Person) : Option Settlement :=
  let net := specNet records edges a b
  let debtor := if net > 0 then a else b
  let creditor := if net > 0 then b else a
  let winItems := pairDebts edges debtor.id creditor.id
  let revItems := pairDebts edges creditor.id debtor.id
  let winForgiven := getForgivenBetween records debtor.id creditor.id
  if |net| > 1/100 then
    some ⟨memberName members debtor.id, memberName members creditor.id, round2 |net|,
          winItems,
          if revItems.length > 0 then some revItems else none,
          round2 (sumPaid winItems),
          if revItems.length > 0 then some (round2 (sumPaid revItems)) else none,
          if winForgiven > 1/100 then some (round2 winForgiven) else none⟩
  else none

/-- The code emission agrees with the claim text emission rule. -/
theorem emitPair_eq_specEmitPair (members : List Person)
    (records : Option (List SettlementRecord)) (edges : List Edge) (a b : Person) :
    emitPair members records edges a b = specEmitPair members records edges a b := by
  unfold emitPair specEmitPair specNet
  set net := sumPaid (pairDebts edges a.id b.id) - getForgivenBetween records a.id b.id
    - (sumPaid (pairDebts edges b.id a.id) - getForgivenBetween records b.id a.id) with hnet
  by_cases habs : |net| > 1/100
  · rw [if_pos habs, if_pos habs]
    by_cases hpos : net > 0
    · rw [if_pos hpos]
      simp only [hpos, if_true]
      rw [abs_of_pos hpos]
    · rw [if_neg hpos]
      simp only [hpos, if_false]
  · rw [if_neg habs, if_neg habs]

/-- Unfolding step for the inner pair loop when the ordering test passes
and the key is fresh. -/
theorem settleStep_fresh (members : List Person) (records : Option (List SettlementRecord))
    (edges : List Edge) (P : List String) (S : List Settlement) (a b : Person)
    (hlt : strLt a.id b.id = true) (hkey : pairKey a b ∉ P) :
    settleStep members records edges (P, S) a b
      = (P ++ [pairKey a b], S ++ (emitPair members records edges a b).toList) := by
  rw [settleStep]
  simp only [hlt, if_true]
  rw [if_neg hkey]
  cases emitPair members records edges a b <;> simp [Option.toList]

/-- Characterization of the inner loop: with a duplicate-free roster tail,
fresh keys and key-injectivity, it appends exactly the keys and emissions of
the ordered pairs it visits. -/
theorem settleInner_eq (members : List Person) (records : Option (List SettlementRecord))
    (edges : List Edge) (a : Person) :
    ∀ (bs : List Person) (P : List String) (S : List Settlement),
      bs.Nodup →
      (∀ b ∈ bs, strLt a.id b.id = true → pairKey a b ∉ P) →
      (∀ b ∈ bs, ∀ b2 ∈ bs, strLt a.id b.id = true → strLt a.id b2.id = true →
        pairKey a b = pairKey a b2 → b = b2) →
      settleInner members records edges a bs (P, S)
        = (P ++ (pairsFrom a bs).map (fun p => pairKey p.1 p.2),
           S ++ (pairsFrom a bs).filterMap (fun p => emitPair members records edges p.1 p.2)) := by
  intro bs
  induction bs with
  | nil => intro P S _ _ _; simp [settleInner, pairsFrom]
  | cons b bs ih =>
    intro P S hnd hfresh hinj
    rw [settleInner]
    by_cases hlt : strLt a.id b.id = true
    · have hkey : pairKey a b ∉ P := hfresh b (List.mem_cons_self _ _) hlt
      rw [settleStep_fresh members records edges P S a b hlt hkey]
      have hfresh2 : ∀ b2 ∈ bs, strLt a.id b2.id = true →
          pairKey a b2 ∉ P ++ [pairKey a b] := by
        intro b2 hb2 hlt2 hmem
        rcases List.mem_append.mp hmem with h | h
        · exact hfresh b2 (List.mem_cons_of_mem _ hb2) hlt2 h
        · have hk : pairKey a b2 = pairKey a b := by simpa using h
          have hb2b : b2 = b :=
            hinj b2 (List.mem_cons_of_mem _ hb2) b (List.mem_cons_self _ _) hlt2 hlt hk
          exact (List.nodup_cons.mp hnd).1 (hb2b ▸ hb2)
      have hinj2 : ∀ b1 ∈ bs, ∀ b2 ∈ bs, strLt a.id b1.id = true → strLt a.id b2.id = true →
          pairKey a b1 = pairKey a b2 → b1 = b2 := by
        intro b1 h1 b2 h2
        exact hinj b1 (List.mem_cons_of_mem _ h1) b2 (List.mem_cons_of_mem _ h2)
      rw [ih (P ++ [pairKey a b]) (S ++ (emitPair members records edges a b).toList)
            (List.nodup_cons.mp hnd).2 hfresh2 hinj2]
      have hpf : pairsFrom a (b :: bs) = (a, b) :: pairsFrom a bs := by
        simp [pairsFrom, List.filter_cons, hlt]
      rw [hpf]
      cases hemit : emitPair members records edges a b <;>
        simp [hemit, Option.toList, List.filterMap_cons]
    · have hlt2 : strLt a.id b.id = false := by
        revert hlt; cases strLt a.id b.id <;> simp
      have hstep : settleStep members records edges (P, S) a b = (P, S) := by
        rw [settleStep]; simp [hlt2]
      rw [hstep]
      have hpf : pairsFrom a (b :: bs) = pairsFrom a bs := by
        simp [pairsFrom, List.filter_cons, hlt2]
      rw [hpf]
      exact ih P S (List.nodup_cons.mp hnd).2
        (fun b2 h2 => hfresh b2 (List.mem_cons_of_mem _ h2))
        (fun b1 h1 b2 h2 => hinj b1 (List.mem_cons_of_mem _ h1) b2 (List.mem_cons_of_mem _ h2))

/-- Characterization of the outer loop under key-injectivity. -/
theorem settleOuter_eq (members : List Person) (records : Option (List SettlementRecord))
    (edges : List Edge) (hm : members.Nodup) (hKI : KeyInjOn members) :
    ∀ (olist : List Person) (P : List String) (S : List Settlement),
      olist.Nodup → (∀ x ∈ olist, x ∈ members) →
      (∀ x ∈ olist, ∀ b ∈ members, strLt x.id b.id = true → pairKey x b ∉ P) →
      settleOuter members records edges olist (P, S)
        = (P ++ (olist.flatMap (fun a => pairsFrom a members)).map (fun p => pairKey p.1 p.2),
           S ++ (olist.flatMap (fun a => pairsFrom a members)).filterMap
                 (fun p => emitPair members records edges p.1 p.2)) := by
  intro olist
  induction olist with
  | nil => intro P S _ _ _; simp [settleOuter]
  | cons a rest ih =>
    intro P S hnd hsub hfresh
    have ha : a ∈ members := hsub a (List.mem_cons_self _ _)
    rw [settleOuter]
    rw [settleInner_eq members records edges a members P S hm
          (fun b hb => hfresh a (List.mem_cons_self _ _) b hb)
          (fun b1 h1 b2 h2 l1 l2 heq => (hKI a ha b1 h1 a ha b2 h2 l1 l2 heq).2)]
    have hfresh2 : ∀ x ∈ rest, ∀ b ∈ members, strLt x.id b.id = true →
        pairKey x b ∉ P ++ (pairsFrom a members).map (fun p => pairKey p.1 p.2) := by
      intro x hx b hb hlt hmem
      rcases List.mem_append.mp hmem with h | h
      · exact hfresh x (List.mem_cons_of_mem _ hx) b hb hlt h
      · rcases List.mem_map.mp h with ⟨p, hp, hkeq⟩
        rcases List.mem_map.mp hp with ⟨c, hc, hpc⟩
        have hcmem : c ∈ members := List.mem_of_mem_filter hc
        have hclt : strLt a.id c.id = true := by
          have := List.of_mem_filter hc
          simpa using this
        have hpair : pairKey x b = pairKey a c := by rw [← hkeq, ← hpc]
        have hxa : x = a :=
          (hKI x (hsub x (List.mem_cons_of_mem _ hx)) b hb a ha c hcmem hlt hclt hpair).1
        exact (List.nodup_cons.mp hnd).1 (hxa ▸ hx)
    rw [ih (P ++ (pairsFrom a members).map (fun p => pairKey p.1 p.2))
          (S ++ (pairsFrom a members).filterMap (fun p => emitPair members records edges p.1 p.2))
          (List.nodup_cons.mp hnd).2
          (fun x hx => hsub x (List.mem_cons_of_mem _ hx)) hfresh2]
    simp [List.flatMap_cons, List.map_append, List.filterMap_append, List.append_assoc]

/-- The pairwise loop of the resolver visits the ordered pairs in roster
order and emits exactly the per-pair results, provided member ids are
duplicate-free and the processed-set keys of distinct pairs do not collide. -/
theorem settleLoop_eq (members : List Person) (records : Option (List SettlementRecord))
    (edges : List Edge) (hnd : (members.map Person.id).Nodup) (hKI : KeyInjOn members) :
    (settleOuter members records edges members ([], [])).2
      = (orderedPairs members).filterMap (fun p => emitPair members records edges p.1 p.2) := by
  have hm : members.Nodup := List.Nodup.of_map Person.id hnd
  rw [settleOuter_eq members records edges hm hKI members [] [] hm (fun x hx => hx)
        (fun x _ b _ _ h => (List.not_mem_nil _ h))]
  simp [orderedPairs]

/-- Membership in the ordered-pair enumeration. -/
theorem mem_orderedPairs (members : List Person) (x y : Person) :
    (x, y) ∈ orderedPairs members ↔
      x ∈ members ∧ y ∈ members ∧ strLt x.id y.id = true := by
  unfold orderedPairs pairsFrom
  constructor
  · intro h
    rcases List.mem_flatMap.mp h with ⟨a, ha, hp⟩
    rcases List.mem_map.mp hp with ⟨c, hc, hpc⟩
    have hax : a = x := congrArg Prod.fst hpc
    have hcy : c = y := congrArg Prod.snd hpc
    subst hax; subst hcy
    refine ⟨ha, List.mem_of_mem_filter hc, ?_⟩
    simpa using List.of_mem_filter hc
  · intro ⟨hx, hy, hlt⟩
    apply List.mem_flatMap.mpr
    refine ⟨x, hx, ?_⟩
    apply List.mem_map.mpr
    refine ⟨y, ?_, rfl⟩
    apply List.mem_filter.mpr
    exact ⟨hy, by simpa using hlt⟩

/-- With duplicate-free ids the ordered-pair enumeration has no repeats. -/
theorem nodup_orderedPairs (members : List Person) (hnd : (members.map Person.id).Nodup) :
    (orderedPairs members).Nodup := by
  have hm : members.Nodup := List.Nodup.of_map Person.id hnd
  unfold orderedPairs
  rw [List.nodup_flatMap]
  constructor
  · intro a _
    unfold pairsFrom
    apply List.Nodup.map
    · intro x y hxy
      exact congrArg Prod.snd hxy
    · exact List.Nodup.filter _ hm
  · have : ∀ a b : Person, a ≠ b →
        (List.Disjoint on fun a => pairsFrom a members) a b := by
      intro a b hab p hpa hpb
      unfold pairsFrom at hpa hpb
      rcases List.mem_map.mp hpa with ⟨c, _, hc⟩
      rcases List.mem_map.mp hpb with ⟨d, _, hd⟩
      have h1 : p.1 = a := by rw [← hc]
      have h2 : p.1 = b := by rw [← hd]
      exact hab (h1 ▸ h2)
    exact List.Pairwise.imp (fun hab => this _ _ hab) hm

/-- Duplicate-free ids make the id field injective on the roster. -/
theorem id_inj_of_nodup (members : List Person) (hnd : (members.map Person.id).Nodup) :
    ∀ x ∈ members, ∀ y ∈ members, x.id = y.id → x = y := by
  intro x hx y hy hxy
  exact List.inj_on_of_nodup_map hnd hx hy hxy

/-- Every unordered pair of distinct members appears in some orientation. -/
theorem orderedPairs_complete (members : List Person) (hnd : (members.map Person.id).Nodup) :
    ∀ x ∈ members, ∀ y ∈ members, x ≠ y →
      (x, y) ∈ orderedPairs members ∨ (y, x) ∈ orderedPairs members := by
  intro x hx y hy hne
  have hid : x.id ≠ y.id := fun h => hne (id_inj_of_nodup members hnd x hx y hy h)
  rcases strLt_total_of_ne hid with h | h
  · exact Or.inl ((mem_orderedPairs members x y).mpr ⟨hx, hy, h⟩)
  · exact Or.inr ((mem_orderedPairs members y x).mpr ⟨hy, hx, h⟩)

/-! ## Concrete rosters and bills used by the claim instances -/

def wA : Person := ⟨"a", "Alice", 0⟩
def wB : Person := ⟨"b", "Bob", 0⟩

/-- Coverage bill on which Alice owes Bob 50. -/
def billX : Bill :=
  ⟨"x", "Rent", 50, "2024-01-01", "other", .even, none,
   some [("b", 50)], none, some [⟨"b", "a", 50⟩], true, none, none⟩

/-- Coverage bill on which Bob owes Alice 20. -/
def billY : Bill :=
  ⟨"y", "Water", 20, "2024-01-02", "utility", .even, none,
   some [("a", 20)], none, some [⟨"a", "b", 20⟩], true, none, none⟩

def itemX : SettlementBreakdown := ⟨"x", "Rent", "other", "2024-01-01", 50, 25, 50⟩
def itemY : SettlementBreakdown := ⟨"y", "Water", "utility", "2024-01-02", 20, 10, 20⟩
def edgeX : Edge := ⟨"a", "b", itemX⟩
def edgeY : Edge := ⟨"b", "a", itemY⟩

/-- C1: amended pairwise-netting claim.  With duplicate-free member ids,
collision-free processed-set keys and a successfully built debt graph, the
resolver output is exactly one emission attempt per unordered pair of
distinct members (oriented by increasing id, enumerated without repeats and
completely), where each attempt follows the claim rule specEmitPair: emit
iff the absolute net exceeds one cent, debtor by sign of the net, amount the
rounded absolute net, breakdown the winning direction, offsetBreakdown and
grossOffset present exactly when the reverse direction has items, grossOwed
the rounded winning gross, forgiven present exactly when the winning
forgiven sum exceeds one cent. -/
theorem c1_pairwise_netting (bills : List Bill) (members : List Person)
    (records : Option (List SettlementRecord)) (edges : List Edge)
    (hnd : (members.map Person.id).Nodup) (hKI : KeyInjOn members)
    (hok : buildDebts bills members = Except.ok edges) :
    calculateSettlementsWithBreakdown bills members records
      = Except.ok ((orderedPairs members).filterMap
          (fun p => specEmitPair members records edges p.1 p.2))
    ∧ (orderedPairs members).Nodup
    ∧ (∀ x y : Person, (x, y) ∈ orderedPairs members ↔
        x ∈ members ∧ y ∈ members ∧ strLt x.id y.id = true)
    ∧ (∀ x ∈ members, ∀ y ∈ members, x ≠ y →
        (x, y) ∈ orderedPairs members ∨ (y, x) ∈ orderedPairs members) := by
  refine ⟨?_, nodup_orderedPairs members hnd, mem_orderedPairs members,
          orderedPairs_complete members hnd⟩
  unfold calculateSettlementsWithBreakdown
  rw [hok]
  show Except.ok (settleOuter members records edges members ([], [])).2 = _
  rw [settleLoop_eq members records edges hnd hKI]
  have hfun : (fun p : Person × Person => emitPair members records edges p.1 p.2)
      = (fun p : Person × Person => specEmitPair members records edges p.1 p.2) := by
    funext p
    exact emitPair_eq_specEmitPair members records edges p.1 p.2
  rw [hfun]

/-- C1 witness: the scenario of the claim.  Alice owes Bob 50 on one bill
and Bob owes Alice 20 on another, both via coverage; the resolver emits
exactly one settlement, Alice owes Bob 30 with grossOwed 50 and grossOffset
20, and it equals the claim emission rule applied to the one ordered pair. -/
theorem c1_witness :
    calculateSettlementsWithBreakdown [billX, billY] [wA, wB] none
      = Except.ok ((orderedPairs [wA, wB]).filterMap
          (fun p => specEmitPair [wA, wB] none [edgeX, edgeY] p.1 p.2))
    ∧ calculateSettlementsWithBreakdown [billX, billY] [wA, wB] none
      = Except.ok [⟨"Alice", "Bob", 30, [itemX], some [itemY], 50, some 20, none⟩] :=
  ⟨(c1_pairwise_netting [billX, billY] [wA, wB] none [edgeX, edgeY]
      (by decide) (by decide) (by with_unfolding_all decide)).1,
   by with_unfolding_all decide⟩

/-! Roster whose ids make two different pairs share one processed-set key:
the key of (a, b-c) and the key of (a-b, c) is a-b-c in both cases. -/

def mxP : Person := ⟨"a", "MA", 0⟩
def myP : Person := ⟨"b-c", "MB", 0⟩
def mzP : Person := ⟨"a-b", "MC", 0⟩
def mwP : Person := ⟨"c", "MD", 0⟩

def collMembers : List Person := [mxP, myP, mzP, mwP]

/-- A coverage bill that makes MC owe MD ten dollars. -/
def collBill : Bill :=
  ⟨"k", "Gas", 10, "2024-03-01", "utility", .even, none,
   some [("c", 10)], none, some [⟨"c", "a-b", 10⟩], true, none, none⟩

def collEdge : Edge := ⟨"a-b", "c", ⟨"k", "Gas", "utility", "2024-03-01", 10, 5/2, 10⟩⟩

/-- C1 counterexample: on this roster the pair (MC, MD) has absolute net 10,
far above one cent, yet the resolver emits no settlement at all, because the
processed-set key of the earlier pair (MA, MB) collides with it.  The claim
as stated (exactly one settlement for every distinct pair with net above one
cent) is therefore false on the code. -/
theorem c1_counterexample :
    calculateSettlementsWithBreakdown [collBill] collMembers none = Except.ok []
    ∧ buildDebts [collBill] collMembers = Except.ok [collEdge]
    ∧ mzP ∈ collMembers ∧ mwP ∈ collMembers ∧ mzP ≠ mwP
    ∧ |specNet none [collEdge] mzP mwP| > 1/100
    ∧ specEmitPair collMembers none [collEdge] mzP mwP ≠ none := by
  with_unfolding_all decide

/-! ## C2: coverage allocations are authoritative -/

/-- Claim C2 attribution for a coverage bill: one debt edge per allocation
above one cent, of exactly the allocation amount, from the covered member to
the payer, tagged with the bill id, name, category, due date and total
amount, and with theirShare the covered member share. -/
def coverageSpec (members : List Person) (bill : Bill) (covs : List CoverageAllocation) :
    List Edge :=
  (covs.filter (fun cov => decide (cov.amount > 1/100))).map (fun cov =>
    ⟨cov.coveredId, cov.payerId,
     ⟨bill.id, bill.name, bill.category, bill.dueDate, bill.amount,
      objGetD (calculateBillShares bill members) cov.coveredId, cov.amount⟩⟩)

/-- Bind on a successful Except computes the continuation. -/
theorem exceptOkBind {e a b : Type} (x : a) (f : a → Except e b) :
    (Except.ok x >>= f : Except e b) = f x := rfl

/-- The coverage fold succeeds and appends exactly the coverageSpec edges
when every effective allocation references two distinct roster ids. -/
theorem coverage_fold_eq (members : List Person) (bill : Bill) :
    ∀ (covs : List CoverageAllocation) (es : List Edge),
      (∀ cov ∈ covs, cov.amount > 1/100 →
        cov.coveredId ∈ members.map Person.id ∧ cov.payerId ∈ members.map Person.id ∧
        cov.coveredId ≠ cov.payerId) →
      covs.foldlM (fun es2 cov =>
        if cov.amount > 1/100 then
          pushDebt (members.map Person.id) es2 cov.coveredId cov.payerId
            ⟨bill.id, bill.name, bill.category, bill.dueDate, bill.amount,
             objGetD (calculateBillShares bill members) cov.coveredId, cov.amount⟩
        else .ok es2) es
      = Except.ok (es ++ coverageSpec members bill covs) := by
  intro covs
  induction covs with
  | nil => intro es _; rw [List.foldlM_nil]; simp [coverageSpec]; rfl
  | cons cov covs ih =>
    intro es hval
    rw [List.foldlM_cons]
    by_cases hamt : cov.amount > 1/100
    · rw [if_pos hamt]
      have hv := hval cov (List.mem_cons_self _ _) hamt
      rw [pushDebt, if_pos ⟨hv.1, hv.2.1, hv.2.2⟩]
      rw [exceptOkBind]
      rw [ih (es ++ [_]) (fun c hc => hval c (List.mem_cons_of_mem _ hc))]
      have hcs : coverageSpec members bill (cov :: covs)
          = ⟨cov.coveredId, cov.payerId,
             ⟨bill.id, bill.name, bill.category, bill.dueDate, bill.amount,
              objGetD (calculateBillShares bill members) cov.coveredId, cov.amount⟩⟩ ::
            coverageSpec members bill covs := by
        unfold coverageSpec
        have hd : decide (cov.amount > 1/100) = true := decide_eq_true hamt
        rw [List.filter_cons, hd]
        simp
      rw [hcs]
      simp [List.append_assoc]
    · rw [if_neg hamt]
      rw [exceptOkBind]
      rw [ih es (fun c hc => hval c (List.mem_cons_of_mem _ hc))]
      have hcs : coverageSpec members bill (cov :: covs) = coverageSpec members bill covs := by
        unfold coverageSpec
        have hd : decide (cov.amount > 1/100) = false := decide_eq_false hamt
        rw [List.filter_cons, hd]
        simp
      rw [hcs]

/-- C2 (amended): a bill with a present, non-empty coverage allocation list
is processed by attributing exactly the coverageSpec debts, each allocation
above one cent giving one debt of exactly its amount from the covered member
to the payer with the claimed tags, and no proportional inference runs on
that bill, provided every effective allocation references two distinct
roster ids (otherwise the code throws instead, see C9). -/
theorem c2_coverage_authoritative (bill : Bill) (members : List Person) (edges : List Edge)
    (covs : List CoverageAllocation)
    (hcov : bill.coverageAllocations = some covs) (hne : covs ≠ [])
    (hval : ∀ cov ∈ covs, cov.amount > 1/100 →
      cov.coveredId ∈ members.map Person.id ∧ cov.payerId ∈ members.map Person.id ∧
      cov.coveredId ≠ cov.payerId) :
    processBill members edges bill = Except.ok (edges ++ coverageSpec members bill covs) := by
  unfold processBill
  have hhas : hasCoverage bill = true := by
    unfold hasCoverage
    rw [hcov]
    cases covs with
    | nil => exact absurd rfl hne
    | cons c cs => simp
  rw [hhas, if_pos rfl]
  rw [hcov]
  show (covs.foldlM _ edges) = _
  exact coverage_fold_eq members bill covs edges hval

/-- The C2 scenario bill: amount 60, custom shares 30 and 30, Alice paid 60,
one allocation of 30 with Alice covering Bob. -/
def sc2Bill : Bill :=
  ⟨"s2", "Electric", 60, "2024-04-01", "utility", .custom, none,
   some [("a", 60)], none, some [⟨"a", "b", 30⟩], true, some [("a", 30), ("b", 30)], none⟩

/-- C2 witness: the scenario of the claim.  The coverage branch attributes
exactly one debt edge, Bob owes Alice 30 with theirShare 30, and the full
resolver yields exactly one settlement, Bob owes Alice 30 with no
proportional inference applied. -/
theorem c2_witness :
    processBill [wA, wB] [] sc2Bill
      = Except.ok ([] ++ coverageSpec [wA, wB] sc2Bill [⟨"a", "b", 30⟩])
    ∧ coverageSpec [wA, wB] sc2Bill [⟨"a", "b", 30⟩]
      = [⟨"b", "a", ⟨"s2", "Electric", "utility", "2024-04-01", 60, 30, 30⟩⟩]
    ∧ calculateSettlementsWithBreakdown [sc2Bill] [wA, wB] none
      = Except.ok [⟨"Bob", "Alice", 30,
          [⟨"s2", "Electric", "utility", "2024-04-01", 60, 30, 30⟩], none, 30, none, none⟩] :=
  ⟨c2_coverage_authoritative sc2Bill [wA, wB] [] [⟨"a", "b", 30⟩] rfl
      (by decide) (by with_unfolding_all decide),
   by with_unfolding_all decide,
   by with_unfolding_all decide⟩

/-- A coverage allocation whose covered id is not on the roster. -/
def badCovBill : Bill :=
  ⟨"s9", "Cable", 60, "2024-05-01", "internet", .even, none,
   some [("a", 60)], none, some [⟨"a", "ghost", 30⟩], true, none, none⟩

/-- C2 counterexample: on a qualifying coverage bill whose allocation
references an id outside the roster, the resolver attributes nothing at all
and aborts with a TypeError, so the claim as stated (a debt is attributed
for every allocation above one cent) is false on the code. -/
theorem c2_counterexample :
    billQualifies badCovBill = true
    ∧ badCovBill.coverageAllocations = some [⟨"a", "ghost", 30⟩]
    ∧ (30 : ℚ) > 1/100
    ∧ calculateSettlementsWithBreakdown [badCovBill] [wA, wB] none
      = Except.error "TypeError: cannot read properties of undefined" := by
  with_unfolding_all decide

/-! ## C3: proportional inference for fully paid bills without coverage -/

/-- Inner push fold over creditors for one debtor, as a pure list. -/
theorem pushFoldInner_eq (ids : List String) (amt : Person → ℚ)
    (mk : Person → SettlementBreakdown) (d : Person) :
    ∀ (cs : List Person) (es : List Edge),
      (∀ c ∈ cs, amt c > 1/100 → d.id ∈ ids ∧ c.id ∈ ids ∧ d.id ≠ c.id) →
      cs.foldlM (fun es2 c =>
          if amt c > 1/100 then pushDebt ids es2 d.id c.id (mk c) else .ok es2) es
        = Except.ok (es ++ cs.filterMap (fun c =>
            if amt c > 1/100 then some ⟨d.id, c.id, mk c⟩ else none)) := by
  intro cs
  induction cs with
  | nil => intro es _; rw [List.foldlM_nil]; simp; rfl
  | cons c cs ih =>
    intro es hval
    rw [List.foldlM_cons]
    by_cases hamt : amt c > 1/100
    · rw [if_pos hamt]
      have hv := hval c (List.mem_cons_self _ _) hamt
      rw [pushDebt, if_pos ⟨hv.1, hv.2.1, hv.2.2⟩, exceptOkBind]
      rw [ih (es ++ [_]) (fun x hx => hval x (List.mem_cons_of_mem _ hx))]
      rw [List.filterMap_cons, if_pos hamt]
      simp [List.append_assoc]
    · rw [if_neg hamt, exceptOkBind]
      rw [ih es (fun x hx => hval x (List.mem_cons_of_mem _ hx))]
      rw [List.filterMap_cons, if_neg hamt]

/-- Outer push fold over debtors, as a pure list. -/
theorem pushFoldOuter_eq (ids : List String) (amt : Person → Person → ℚ)
    (mk : Person → Person → SettlementBreakdown) (cs : List Person) :
    ∀ (ds : List Person) (es : List Edge),
      (∀ d ∈ ds, ∀ c ∈ cs, amt d c > 1/100 → d.id ∈ ids ∧ c.id ∈ ids ∧ d.id ≠ c.id) →
      ds.foldlM (fun es3 d => cs.foldlM (fun es2 c =>
          if amt d c > 1/100 then pushDebt ids es2 d.id c.id (mk d c) else .ok es2) es3) es
        = Except.ok (es ++ ds.flatMap (fun d => cs.filterMap (fun c =>
            if amt d c > 1/100 then some ⟨d.id, c.id, mk d c⟩ else none))) := by
  intro ds
  induction ds with
  | nil => intro es _; rw [List.foldlM_nil]; simp; rfl
  | cons d ds ih =>
    intro es hval
    rw [List.foldlM_cons]
    rw [pushFoldInner_eq ids (amt d) (mk d) d cs es (fun c hc => hval d (List.mem_cons_self _ _) c hc)]
    rw [exceptOkBind]
    rw [ih (es ++ _) (fun x hx => hval x (List.mem_cons_of_mem _ hx))]
    rw [List.flatMap_cons]
    simp [List.append_assoc]

/-- Claim C3 attribution rule for a bill without coverage, written from the
claim text over the same guard structure as the code: nothing unless the
bill is meaningfully paid and shared and totalPaid is at least 99 percent of
totalShares; otherwise each member owes share minus effectivePaid where
effectivePaid is contribution minus creditEarned, debtors (net above one
cent) are distributed over creditors (net below minus one cent)
proportionally to each creditor overpayment over the total overpayment, one
edge per resulting amount above one cent. -/
def inferSpecCore (members : List Person) (shares : Obj) (bill : Bill) : List Edge :=
  let contributions := getBillContributions bill
  let totalPaid := objValsSum contributions
  let totalShares := objValsSum shares
  if totalPaid < 1/100 ∨ totalShares < 1/100 then []
  else if totalPaid < totalShares * (99/100) then []
  else
    let nets : String → ℚ := fun pid =>
      objGetD shares pid - (objGetD contributions pid - creditOf bill pid)
    let billDebtors := members.filter (fun m => decide (nets m.id > 1/100))
    let billCreditors := members.filter (fun m => decide (nets m.id < -(1/100)))
    let totalOwed := billCreditors.foldl (fun s c => s + |nets c.id|) 0
    if totalOwed < 1/100 then []
    else
      billDebtors.flatMap (fun debtor =>
        billCreditors.filterMap (fun creditor =>
          if nets debtor.id * (|nets creditor.id| / totalOwed) > 1/100 then
            some ⟨debtor.id, creditor.id,
              ⟨bill.id, bill.name, bill.category, bill.dueDate, bill.amount,
               objGetD shares debtor.id, nets debtor.id * (|nets creditor.id| / totalOwed)⟩⟩
          else none))

/-- The claim attribution for a bill without coverage, with the shares the
code computes. -/
def inferSpec (members : List Person) (bill : Bill) : List Edge :=
  inferSpecCore members (calculateBillShares bill members) bill

/-- The inference branch never throws and attributes exactly inferSpecCore. -/
theorem inferDebts_eq (members : List Person) (shares : Obj) (edges : List Edge) (bill : Bill) :
    inferDebts members shares edges bill
      = Except.ok (edges ++ inferSpecCore members shares bill) := by
  unfold inferDebts inferSpecCore
  by_cases h1 : objValsSum (getBillContributions bill) < 1/100 ∨ objValsSum shares < 1/100
  · rw [if_pos h1, if_pos h1]; simp
  · rw [if_neg h1, if_neg h1]
    by_cases h2 : objValsSum (getBillContributions bill) < objValsSum shares * (99/100)
    · rw [if_pos h2, if_pos h2]; simp
    · rw [if_neg h2, if_neg h2]
      set nets : String → ℚ := fun pid =>
        objGetD shares pid - (objGetD (getBillContributions bill) pid - creditOf bill pid)
        with hnets
      set billCreditors := members.filter (fun m => decide (nets m.id < -(1/100)))
        with hbcred
      set totalOwed := billCreditors.foldl (fun s c => s + |nets c.id|) 0 with howed
      by_cases h3 : totalOwed < 1/100
      · rw [if_pos h3, if_pos h3]; simp
      · rw [if_neg h3, if_neg h3]
        apply pushFoldOuter_eq (members.map Person.id)
          (fun d c => nets d.id * (|nets c.id| / totalOwed))
          (fun d c => ⟨bill.id, bill.name, bill.category, bill.dueDate, bill.amount,
            objGetD shares d.id, nets d.id * (|nets c.id| / totalOwed)⟩)
          billCreditors (members.filter (fun m => decide (nets m.id > 1/100))) edges
        intro d hd c hc _
        have hdm : d ∈ members := (List.mem_filter.mp hd).1
        have hcm : c ∈ members := (List.mem_filter.mp hc).1
        have hdn : nets d.id > 1/100 := of_decide_eq_true (List.mem_filter.mp hd).2
        have hcn : nets c.id < -(1/100) := of_decide_eq_true (List.mem_filter.mp hc).2
        refine ⟨List.mem_map.mpr ⟨d, hdm, rfl⟩, List.mem_map.mpr ⟨c, hcm, rfl⟩, ?_⟩
        intro hid
        rw [hid] at hdn
        linarith

/-- The C3 scenario bill: amount 100, even split, 40 paid, no coverage. -/
def scPartBill : Bill :=
  ⟨"s3", "Heating", 100, "2024-06-01", "utility", .even, none,
   some [("a", 40)], none, none, false, none, none⟩

/-- C3: a qualifying bill without coverage allocations is processed by
attributing exactly the claim rule inferSpec (so interpersonal debts arise
only when totalPaid is at least 99 percent of totalShares, a relative
tolerance); a bill failing that check attributes nothing; and on the
scenario bill (100 even split, 40 paid) the resolver emits nothing while
the balance aggregator still credits the payer proportionally. -/
theorem c3_proportional_inference (bill : Bill) (members : List Person) (edges : List Edge)
    (hcov : hasCoverage bill = false) :
    processBill members edges bill = Except.ok (edges ++ inferSpec members bill)
    ∧ (objValsSum (getBillContributions bill)
        < objValsSum (calculateBillShares bill members) * (99/100) →
        inferSpec members bill = [])
    ∧ calculateSettlementsWithBreakdown [scPartBill] [wA, wB] none = Except.ok []
    ∧ calculateBalances [scPartBill] [wA, wB] = [⟨"a", "Alice", -20⟩, ⟨"b", "Bob", 20⟩] := by
  refine ⟨?_, ?_, by with_unfolding_all decide, by with_unfolding_all decide⟩
  · unfold processBill
    rw [hcov]
    show inferDebts members (calculateBillShares bill members) edges bill = _
    exact inferDebts_eq members (calculateBillShares bill members) edges bill
  · intro h
    unfold inferSpec inferSpecCore
    by_cases h1 : objValsSum (getBillContributions bill) < 1/100
        ∨ objValsSum (calculateBillShares bill members) < 1/100
    · rw [if_pos h1]
    · rw [if_neg h1, if_pos h]

/-- C3 witness: the theorem applied to the scenario bill, whose inference
attribution is empty because 40 is below 99 percent of 100. -/
theorem c3_witness :
    processBill [wA, wB] [] scPartBill = Except.ok ([] ++ inferSpec [wA, wB] scPartBill)
    ∧ inferSpec [wA, wB] scPartBill = []
    ∧ calculateSettlementsWithBreakdown [scPartBill] [wA, wB] none = Except.ok [] :=
  ⟨(c3_proportional_inference scPartBill [wA, wB] [] (by decide)).1,
   (c3_proportional_inference scPartBill [wA, wB] [] (by decide)).2.1
     (by with_unfolding_all decide),
   (c3_proportional_inference scPartBill [wA, wB] [] (by decide)).2.2.1⟩

/-! ## C4: balance aggregator characterization -/

/-- Reading a conditional point-update fold: the start value plus the sum of
the updates whose key is the read point. -/
theorem foldl_updAdd_apply (keep : String × ℚ → Bool) (v : String × ℚ → ℚ) :
    ∀ (l : Obj) (f : String → ℚ) (x : String),
      (l.foldl (fun g p => if keep p then updAdd g p.1 (v p) else g) f) x
        = f x + ((l.filter (fun p => keep p && p.1 == x)).map v).sum := by
  intro l
  induction l with
  | nil => intro f x; simp
  | cons p l ih =>
    intro f x
    rw [List.foldl_cons, ih, List.filter_cons]
    by_cases hk : keep p = true
    · by_cases hx : p.1 = x
      · have hcond : (keep p && (p.1 == x)) = true := by simp [hk, hx]
        rw [hcond]
        have h1 : (if keep p then updAdd f p.1 (v p) else f) = updAdd f p.1 (v p) :=
          if_pos hk
        rw [h1]
        have h2 : updAdd f p.1 (v p) x = f x + v p := by
          unfold updAdd
          rw [if_pos hx.symm]
        rw [h2]
        simp [add_assoc]
      · have hcond : (keep p && (p.1 == x)) = false := by
          simp [beq_iff_eq]
          intro _
          exact hx
        rw [hcond]
        have h1 : (if keep p then updAdd f p.1 (v p) else f) = updAdd f p.1 (v p) :=
          if_pos hk
        rw [h1]
        have h2 : updAdd f p.1 (v p) x = f x := by
          unfold updAdd
          rw [if_neg (fun h => hx h.symm)]
        rw [h2]
        simp
    · have hk2 : keep p = false := by revert hk; cases keep p <;> simp
      have hcond : (keep p && (p.1 == x)) = false := by rw [hk2]; simp
      rw [hcond]
      have h1 : (if keep p then updAdd f p.1 (v p) else f) = f := by
        rw [hk2]; simp
      rw [h1]
      simp

/-- Reading an unconditional point-update fold. -/
theorem foldl_updAdd_apply_all (v : String × ℚ → ℚ) :
    ∀ (l : Obj) (f : String → ℚ) (x : String),
      (l.foldl (fun g p => updAdd g p.1 (v p)) f) x
        = f x + ((l.filter (fun p => p.1 == x)).map v).sum := by
  intro l
  induction l with
  | nil => intro f x; simp
  | cons p l ih =>
    intro f x
    rw [List.foldl_cons, ih, List.filter_cons]
    by_cases hx : p.1 = x
    · have hcond : (p.1 == x) = true := by simp [hx]
      rw [hcond]
      have h2 : updAdd f p.1 (v p) x = f x + v p := by
        unfold updAdd
        rw [if_pos hx.symm]
      rw [h2]
      simp [add_assoc]
    · have hcond : (p.1 == x) = false := by simp [beq_iff_eq]; exact hx
      rw [hcond]
      have h2 : updAdd f p.1 (v p) x = f x := by
        unfold updAdd
        rw [if_neg (fun h => hx h.symm)]
      rw [h2]
      simp

/-- A key-gated filter where the gate depends only on the key equals the
gate evaluated at the key. -/
theorem filter_keep_key (keepId : String → Bool) (x : String) :
    ∀ (l : Obj),
      l.filter (fun p => keepId p.1 && p.1 == x)
        = if keepId x then l.filter (fun p => p.1 == x) else [] := by
  intro l
  induction l with
  | nil => cases h : keepId x <;> simp [h]
  | cons p l ih =>
    rw [List.filter_cons, List.filter_cons]
    by_cases hx : p.1 = x
    · have hkk : keepId p.1 = keepId x := by rw [hx]
      cases h : keepId x with
      | true =>
        have hcond : (keepId p.1 && (p.1 == x)) = true := by
          rw [hkk, h]; simp [hx]
        rw [hcond]
        have hcond2 : (p.1 == x) = true := by simp [hx]
        rw [hcond2]
        simp only [if_true]
        rw [ih, h]
        simp
      | false =>
        have hcond : (keepId p.1 && (p.1 == x)) = false := by rw [hkk, h]; simp
        rw [hcond]
        simp only [Bool.false_eq_true, if_false]
        rw [ih, h]
        simp
    · have hcond : (keepId p.1 && (p.1 == x)) = false := by
        simp [beq_iff_eq]
        intro _
        exact hx
      rw [hcond]
      have hcond2 : (p.1 == x) = false := by simp [beq_iff_eq]; exact hx
      rw [hcond2]
      simp only [Bool.false_eq_true, if_false]
      rw [ih]

/-- On an object with duplicate-free keys, the entries at one key sum to the
single stored value (or nothing when the key is absent). -/
theorem sum_filter_key_nodup (v : String × ℚ → ℚ) :
    ∀ (l : Obj), (l.map Prod.fst).Nodup → ∀ (x : String),
      ((l.filter (fun p => p.1 == x)).map v).sum
        = if objHas l x then v (x, objGetD l x) else 0 := by
  intro l
  induction l with
  | nil => intro _ x; simp [objHas]
  | cons p l ih =>
    intro hnd x
    have hnd2 : (l.map Prod.fst).Nodup := (List.nodup_cons.mp (by simpa using hnd)).2
    have hnotin : p.1 ∉ l.map Prod.fst := (List.nodup_cons.mp (by simpa using hnd)).1
    rw [List.filter_cons]
    by_cases hx : p.1 = x
    · have hcond : (p.1 == x) = true := by simp [hx]
      rw [hcond]
      simp only [if_true]
      have hrest : l.filter (fun p2 => p2.1 == x) = [] := by
        apply List.filter_eq_nil_iff.mpr
        intro p2 hp2
        simp [beq_iff_eq]
        intro he
        exact hnotin (hx ▸ he ▸ List.mem_map.mpr ⟨p2, hp2, rfl⟩)
      rw [hrest]
      have hhas : objHas (p :: l) x = true := by
        unfold objHas
        simp [List.any_cons, hx]
      rw [hhas]
      have hget : objGetD (p :: l) x = p.2 := by
        simp [objGetD, objGet, List.find?_cons, hx]
      rw [hget]
      have hp : (x, p.2) = p := by
        rw [← hx]
      rw [hp]
      simp
    · have hcond : (p.1 == x) = false := by simp [beq_iff_eq]; exact hx
      rw [hcond]
      simp only [Bool.false_eq_true, if_false]
      rw [ih hnd2 x]
      have hhas : objHas (p :: l) x = objHas l x := by
        unfold objHas
        simp [List.any_cons, hx]
      rw [hhas]
      by_cases hh : objHas l x = true
      · rw [hh]
        have hget : objGetD (p :: l) x = objGetD l x := by
          simp [objGetD, objGet, List.find?_cons, hx]
        rw [if_pos rfl, if_pos rfl, hget]
      · have hh2 : objHas l x = false := by revert hh; cases objHas l x <;> simp
        rw [hh2]
        simp

/-- Property assignment preserves duplicate-free keys. -/
theorem objSet_keys_nodup (m : Obj) (k : String) (v : ℚ)
    (hnd : (m.map Prod.fst).Nodup) : ((objSet m k v).map Prod.fst).Nodup := by
  unfold objSet
  by_cases hh : objHas m k = true
  · rw [if_pos hh]
    have hkeys : (m.map (fun p => if p.1 = k then (k, v) else p)).map Prod.fst
        = m.map Prod.fst := by
      rw [List.map_map]
      apply List.map_congr_left
      intro p _
      by_cases hp : p.1 = k
      · simp [hp]
      · simp [hp]
    rw [hkeys]
    exact hnd
  · rw [if_neg hh]
    have hnot : k ∉ m.map Prod.fst := by
      intro hmem
      rcases List.mem_map.mp hmem with ⟨p, hp, hpk⟩
      have : objHas m k = true := by
        unfold objHas
        apply List.any_eq_true.mpr
        exact ⟨p, hp, by simp [hpk]⟩
      exact hh this
    rw [List.map_append]
    simp [List.nodup_append, hnd, hnot]

/-- A fold of key-nodup-preserving steps preserves duplicate-free keys. -/
theorem foldl_keys_nodup {α : Type} (g : Obj → α → Obj)
    (hg : ∀ m a, (m.map Prod.fst).Nodup → ((g m a).map Prod.fst).Nodup) :
    ∀ (xs : List α) (m : Obj), (m.map Prod.fst).Nodup →
      ((xs.foldl g m).map Prod.fst).Nodup := by
  intro xs
  induction xs with
  | nil => intro m h; simpa using h
  | cons a xs ih => intro m h; rw [List.foldl_cons]; exact ih (g m a) (hg m a h)

/-- Every share map the share calculator builds has duplicate-free keys. -/
theorem calculateBillShares_keys_nodup (bill : Bill) (members : List Person) :
    ((calculateBillShares bill members).map Prod.fst).Nodup := by
  unfold calculateBillShares
  cases bill.splitType with
  | mortgage =>
    exact foldl_keys_nodup _ (fun m a h => objSet_keys_nodup m a.id _ h) members [] (by simp)
  | even =>
    exact foldl_keys_nodup _ (fun m a h => objSet_keys_nodup m a.id _ h) members [] (by simp)
  | percentage =>
    cases bill.customSplits with
    | some cs =>
      exact foldl_keys_nodup _ (fun m a h => objSet_keys_nodup m a.id _ h) members [] (by simp)
    | none => simp
  | custom =>
    cases bill.customSplits with
    | some cs =>
      exact foldl_keys_nodup _ (fun m p h => objSet_keys_nodup m p.1 p.2 h) cs [] (by simp)
    | none => simp
  | items =>
    cases bill.items with
    | some its =>
      apply foldl_keys_nodup _ ?step its _
          (foldl_keys_nodup _ (fun m a h => objSet_keys_nodup m a.id _ h) members [] (by simp))
      intro m it h
      by_cases hlen : it.assignedTo.length > 0
      · rw [if_pos hlen]
        exact foldl_keys_nodup _ (fun m2 pid h2 => objSet_keys_nodup m2 pid _ h2)
          it.assignedTo m h
      · rw [if_neg hlen]
        exact h
    | none => simp

/-- Claim C4 per-bill contribution to one balance: zero when the bill is
skipped for a sub-cent total, otherwise share times paidRatio minus own
contribution for a share-holding id, and minus the full payment for a payer
id that holds no share. -/
def billDelta (members : List Person) (bill : Bill) (pid : String) : ℚ :=
  let shares := calculateBillShares bill members
  let contributions := getBillContributions bill
  let totalPaid := objValsSum contributions
  let totalShares := objValsSum shares
  if totalPaid < 1/100 ∨ totalShares < 1/100 then 0
  else
    let paidRat := min (totalPaid / totalShares) 1
    (if objHas shares pid then objGetD shares pid * paidRat - objGetD contributions pid else 0)
    + (if objHas shares pid = false ∧ objHas contributions pid then
        -(objGetD contributions pid) else 0)

/-- An input bill map is well formed when its keys are duplicate-free, the
representation invariant of a JS object. -/
def ContribWF (bill : Bill) : Prop := ((getBillContributions bill).map Prod.fst).Nodup

instance (bill : Bill) : Decidable (ContribWF bill) := by
  unfold ContribWF
  infer_instance

/-- Reading the per-bill balance update at one id gives exactly billDelta. -/
theorem applyBillBalance_apply (members : List Person) (bill : Bill)
    (hWF : ContribWF bill) (f : String → ℚ) (pid : String) :
    applyBillBalance members f bill pid = f pid + billDelta members bill pid := by
  unfold applyBillBalance billDelta
  by_cases h1 : objValsSum (getBillContributions bill) < 1/100
      ∨ objValsSum (calculateBillShares bill members) < 1/100
  · rw [if_pos h1, if_pos h1]
    simp
  · rw [if_neg h1, if_neg h1]
    set shares := calculateBillShares bill members with hsh
    set contributions := getBillContributions bill with hco
    set paidRat := min (objValsSum contributions / objValsSum shares) 1 with hrat
    have hshnd : (shares.map Prod.fst).Nodup := calculateBillShares_keys_nodup bill members
    have hconodup : (contributions.map Prod.fst).Nodup := hWF
    have hstep1 : (shares.foldl
          (fun g p => updAdd g p.1 (p.2 * paidRat - objGetD contributions p.1)) f) pid
        = f pid + (if objHas shares pid then
            objGetD shares pid * paidRat - objGetD contributions pid else 0) := by
      rw [foldl_updAdd_apply_all (fun p => p.2 * paidRat - objGetD contributions p.1)
            shares f pid]
      rw [sum_filter_key_nodup _ shares hshnd pid]
    have hstep2 : ∀ (g : String → ℚ),
        (contributions.foldl
            (fun g2 p => if objHas shares p.1 then g2 else updAdd g2 p.1 (-p.2)) g) pid
          = g pid + (if objHas shares pid = false ∧ objHas contributions pid then
              -(objGetD contributions pid) else 0) := by
      intro g
      have hbody : (contributions.foldl
            (fun g2 p => if objHas shares p.1 then g2 else updAdd g2 p.1 (-p.2)) g)
          = (contributions.foldl
              (fun g2 p => if !objHas shares p.1 then updAdd g2 p.1 (-p.2) else g2) g) := by
        apply congrArg (fun h => List.foldl h g contributions)
        funext g2 p
        by_cases hh : objHas shares p.1 = true
        · simp [hh]
        · have : objHas shares p.1 = false := by revert hh; cases objHas shares p.1 <;> simp
          simp [this]
      rw [hbody]
      rw [foldl_updAdd_apply (fun p => !objHas shares p.1) (fun p => -p.2) contributions g pid]
      rw [filter_keep_key (fun k => !objHas shares k) pid contributions]
      by_cases hh : objHas shares pid = true
      · have : (!objHas shares pid) = false := by rw [hh]; rfl
        rw [this]
        simp [hh]
      · have hh2 : objHas shares pid = false := by revert hh; cases objHas shares pid <;> simp
        have : (!objHas shares pid) = true := by rw [hh2]; rfl
        rw [this]
        simp only [if_true]
        rw [sum_filter_key_nodup (fun p => -p.2) contributions hconodup pid]
        by_cases hc : objHas contributions pid = true
        · rw [if_pos hc, if_pos ⟨hh2, hc⟩]
        · rw [if_neg hc, if_neg (fun hand => hc hand.2)]
    rw [hstep2 _, hstep1]
    ring

/-- Reading the whole balances fold at one id sums the per-bill deltas. -/
theorem balances_fold_apply (members : List Person) :
    ∀ (bl : List Bill), (∀ b ∈ bl, ContribWF b) → ∀ (f : String → ℚ) (pid : String),
      (bl.foldl (applyBillBalance members) f) pid
        = f pid + (bl.map (fun b => billDelta members b pid)).sum := by
  intro bl
  induction bl with
  | nil => intro _ f pid; simp
  | cons b bl ih =>
    intro hWF f pid
    rw [List.foldl_cons]
    rw [ih (fun x hx => hWF x (List.mem_cons_of_mem _ hx)) (applyBillBalance members f b) pid]
    rw [applyBillBalance_apply members b (hWF b (List.mem_cons_self _ _)) f pid]
    rw [List.map_cons, List.sum_cons]
    ring

/-- Claim C4 balance of one id: the sum over qualifying bills of the
per-bill delta. -/
def balSpec (bills : List Bill) (members : List Person) (pid : String) : ℚ :=
  ((bills.filter billQualifies).map (fun b => billDelta members b pid)).sum

/-- C4: the balance aggregator reports, for each roster member in order,
the rounded sum over exactly the qualifying bills (isPaid with a payer
field, or some positive contribution) of share times paidRatio minus own
contribution, with sub-cent bills skipped and unshared payers refunded in
full, as described by balSpec and billDelta. -/
theorem c4_balance_aggregator (bills : List Bill) (members : List Person)
    (hWF : ∀ b ∈ bills, ContribWF b) :
    calculateBalances bills members
      = members.map (fun m => ⟨m.id, m.name, round2 (balSpec bills members m.id)⟩) := by
  unfold calculateBalances balSpec
  apply List.map_congr_left
  intro m _
  have h := balances_fold_apply members (bills.filter billQualifies)
    (fun b hb => hWF b (List.mem_of_mem_filter hb)) (fun _ => 0) m.id
  rw [h]
  simp

/-- The C4 scenario bill: amount 100, even split, single payer Alice. -/
def scC4Bill : Bill :=
  ⟨"s4", "Internet", 100, "2024-07-01", "internet", .even, some "a",
   none, none, none, true, none, none⟩

/-- C4 witness: on the even hundred-dollar bill paid in full by Alice, the
characterization applies and the reported balances are Alice minus fifty,
Bob plus fifty. -/
theorem c4_witness :
    calculateBalances [scC4Bill] [wA, wB]
      = [wA, wB].map (fun m => ⟨m.id, m.name, round2 (balSpec [scC4Bill] [wA, wB] m.id)⟩)
    ∧ calculateBalances [scC4Bill] [wA, wB] = [⟨"a", "Alice", -50⟩, ⟨"b", "Bob", 50⟩] :=
  ⟨c4_balance_aggregator [scC4Bill] [wA, wB] (by decide),
   by with_unfolding_all decide⟩

/-! ## C7: balance conservation -/

/-- Rounding to cents moves a value by at most half a cent. -/
theorem abs_round2_sub_le (x : ℚ) : |round2 x - x| ≤ 1/200 := by
  unfold round2
  have h1 : ((⌊x * 100 + 1/2⌋ : ℤ) : ℚ) ≤ x * 100 + 1/2 := Int.floor_le _
  have h2 : x * 100 + 1/2 < (⌊x * 100 + 1/2⌋ : ℤ) + 1 := Int.lt_floor_add_one _
  rw [abs_le]
  constructor <;> linarith

/-- Sums of pointwise sums split. -/
theorem sum_map_add {α : Type} (l : List α) (f g : α → ℚ) :
    (l.map (fun x => f x + g x)).sum = (l.map f).sum + (l.map g).sum := by
  induction l with
  | nil => simp
  | cons x l ih =>
    rw [List.map_cons, List.sum_cons, List.map_cons, List.sum_cons,
        List.map_cons, List.sum_cons, ih]
    ring

/-- Sums of pointwise differences split. -/
theorem sum_map_sub {α : Type} (l : List α) (f g : α → ℚ) :
    (l.map (fun x => f x - g x)).sum = (l.map f).sum - (l.map g).sum := by
  induction l with
  | nil => simp
  | cons x l ih =>
    rw [List.map_cons, List.sum_cons, List.map_cons, List.sum_cons,
        List.map_cons, List.sum_cons, ih]
    ring

/-- A constant right factor pulls out of a sum. -/
theorem sum_map_mul {α : Type} (l : List α) (f : α → ℚ) (c : ℚ) :
    (l.map (fun x => f x * c)).sum = (l.map f).sum * c := by
  induction l with
  | nil => simp
  | cons x l ih =>
    rw [List.map_cons, List.sum_cons, List.map_cons, List.sum_cons, ih]
    ring

/-- A left fold of additions is the start value plus the sum. -/
theorem foldl_add_eq_sum {α : Type} (g : α → ℚ) :
    ∀ (l : List α) (s : ℚ), l.foldl (fun a x => a + g x) s = s + (l.map g).sum := by
  intro l
  induction l with
  | nil => intro s; simp
  | cons x l ih =>
    intro s
    rw [List.foldl_cons, ih, List.map_cons, List.sum_cons]
    ring

/-- The value fold of objValsSum is a plain sum. -/
theorem objValsSum_eq_sum (m : Obj) : objValsSum m = (m.map Prod.snd).sum := by
  unfold objValsSum
  rw [foldl_add_eq_sum (fun v : ℚ => v) (m.map Prod.snd) 0]
  have hid : List.map (fun v : ℚ => v) (m.map Prod.snd) = m.map Prod.snd := List.map_id _
  rw [hid, zero_add]

/-- A bounded-term sum is bounded by length times the bound. -/
theorem abs_sum_le_card {α : Type} (f : α → ℚ) (c : ℚ) :
    ∀ (l : List α), (∀ x ∈ l, |f x| ≤ c) → |(l.map f).sum| ≤ (l.length : ℚ) * c := by
  intro l
  induction l with
  | nil => intro _; simp
  | cons x l ih =>
    intro h
    rw [List.map_cons, List.sum_cons]
    have h1 : |f x + (l.map f).sum| ≤ |f x| + |(l.map f).sum| := abs_add _ _
    have h2 := ih (fun y hy => h y (List.mem_cons_of_mem _ hy))
    have h3 := h x (List.mem_cons_self _ _)
    have hlen : ((x :: l).length : ℚ) = (l.length : ℚ) + 1 := by
      push_cast [List.length_cons]
      ring
    rw [hlen]
    calc |f x + (l.map f).sum| ≤ |f x| + |(l.map f).sum| := h1
      _ ≤ c + (l.length : ℚ) * c := add_le_add h3 h2
      _ = ((l.length : ℚ) + 1) * c := by ring

/-- Summing a point update over a duplicate-free roster containing the key
adds exactly the update. -/
theorem sum_members_updAdd (members : List Person) (hnd : (members.map Person.id).Nodup)
    (f : String → ℚ) (k : String) (v : ℚ) (hk : k ∈ members.map Person.id) :
    (members.map (fun m => updAdd f k v m.id)).sum
      = (members.map (fun m => f m.id)).sum + v := by
  induction members with
  | nil => simp at hk
  | cons m members ih =>
    rw [List.map_cons] at hnd
    rw [List.map_cons, List.sum_cons, List.map_cons, List.sum_cons]
    by_cases hm : m.id = k
    · have hnot : k ∉ members.map Person.id := by
        have := (List.nodup_cons.mp hnd).1
        rw [← hm]
        exact this
      have hrest : (members.map (fun m2 => updAdd f k v m2.id)).sum
          = (members.map (fun m2 => f m2.id)).sum := by
        apply congrArg List.sum
        apply List.map_congr_left
        intro m2 hm2
        unfold updAdd
        rw [if_neg]
        intro he
        exact hnot (he ▸ List.mem_map.mpr ⟨m2, hm2, rfl⟩)
      rw [hrest]
      unfold updAdd
      rw [if_pos hm]
      ring
    · have hk2 : k ∈ members.map Person.id := by
        rcases List.mem_map.mp hk with ⟨m2, hm2, hme⟩
        cases List.mem_cons.mp hm2 with
        | inl h => exact absurd (h ▸ hme) hm
        | inr h => exact List.mem_map.mpr ⟨m2, h, hme⟩
      rw [ih (List.nodup_cons.mp hnd).2 hk2]
      unfold updAdd
      rw [if_neg hm]
      ring

/-- Summing the unconditional share fold over the roster adds the sum of
the update values, when every key lies in the roster. -/
theorem sum_members_fold_all (members : List Person) (hnd : (members.map Person.id).Nodup)
    (v : String × ℚ → ℚ) :
    ∀ (l : Obj) (f : String → ℚ),
      (∀ p ∈ l, p.1 ∈ members.map Person.id) →
      (members.map (fun m => (l.foldl (fun g p => updAdd g p.1 (v p)) f) m.id)).sum
        = (members.map (fun m => f m.id)).sum + (l.map v).sum := by
  intro l
  induction l with
  | nil => intro f _; simp
  | cons p l ih =>
    intro f hkeys
    rw [List.foldl_cons]
    rw [ih (updAdd f p.1 (v p)) (fun q hq => hkeys q (List.mem_cons_of_mem _ hq))]
    rw [sum_members_updAdd members hnd f p.1 (v p) (hkeys p (List.mem_cons_self _ _))]
    rw [List.map_cons, List.sum_cons]
    ring

/-- Summing the conditional contributions fold over the roster adds the sum
of the gated update values, when every key lies in the roster. -/
theorem sum_members_fold_cond (members : List Person) (hnd : (members.map Person.id).Nodup)
    (keep : String × ℚ → Bool) (v : String × ℚ → ℚ) :
    ∀ (l : Obj) (f : String → ℚ),
      (∀ p ∈ l, p.1 ∈ members.map Person.id) →
      (members.map (fun m =>
          (l.foldl (fun g p => if keep p then updAdd g p.1 (v p) else g) f) m.id)).sum
        = (members.map (fun m => f m.id)).sum
          + (l.map (fun p => if keep p then v p else 0)).sum := by
  intro l
  induction l with
  | nil => intro f _; simp
  | cons p l ih =>
    intro f hkeys
    rw [List.foldl_cons]
    by_cases hkp : keep p = true
    · rw [if_pos hkp]
      rw [ih (updAdd f p.1 (v p)) (fun q hq => hkeys q (List.mem_cons_of_mem _ hq))]
      rw [sum_members_updAdd members hnd f p.1 (v p) (hkeys p (List.mem_cons_self _ _))]
      rw [List.map_cons, List.sum_cons, if_pos hkp]
      ring
    · rw [if_neg hkp]
      rw [ih f (fun q hq => hkeys q (List.mem_cons_of_mem _ hq))]
      rw [List.map_cons, List.sum_cons, if_neg hkp]
      ring

/-- Summing an if-key indicator over an object with duplicate-free keys. -/
theorem sum_if_key (k : String) (c : ℚ) :
    ∀ (l : Obj), (l.map Prod.fst).Nodup →
      (l.map (fun p => if p.1 = k then c else 0)).sum = if objHas l k then c else 0 := by
  intro l
  induction l with
  | nil => intro _; simp [objHas]
  | cons p l ih =>
    intro hnd
    rw [List.map_cons, List.sum_cons]
    have hnd2 : (l.map Prod.fst).Nodup := (List.nodup_cons.mp (by simpa using hnd)).2
    have hnotin : p.1 ∉ l.map Prod.fst := (List.nodup_cons.mp (by simpa using hnd)).1
    by_cases hp : p.1 = k
    · rw [if_pos hp]
      have hrest : (l.map (fun q => if q.1 = k then c else 0)).sum = 0 := by
        apply List.sum_eq_zero
        intro x hx
        rcases List.mem_map.mp hx with ⟨q, hq, hqe⟩
        rw [← hqe]
        rw [if_neg]
        intro he
        exact hnotin (hp ▸ he ▸ List.mem_map.mpr ⟨q, hq, rfl⟩)
      rw [hrest]
      have hhas : objHas (p :: l) k = true := by
        unfold objHas
        simp [List.any_cons, hp]
      rw [hhas]
      simp
    · rw [if_neg hp, ih hnd2]
      have hhas : objHas (p :: l) k = objHas l k := by
        unfold objHas
        simp [List.any_cons, hp]
      rw [hhas]
      ring

/-- Double counting: reading the contributions at every share key equals
summing the contribution entries whose key holds a share. -/
theorem sum_getD_over_keys (shares : Obj) (hsnd : (shares.map Prod.fst).Nodup) :
    ∀ (contribs : Obj), (contribs.map Prod.fst).Nodup →
      (shares.map (fun p => objGetD contribs p.1)).sum
        = (contribs.map (fun p => if objHas shares p.1 then p.2 else 0)).sum := by
  intro contribs
  induction contribs with
  | nil => intro _; simp [objGetD, objGet]
  | cons q contribs ih =>
    intro hnd
    have hnd2 : (contribs.map Prod.fst).Nodup := (List.nodup_cons.mp (by simpa using hnd)).2
    have hnotin : q.1 ∉ contribs.map Prod.fst := (List.nodup_cons.mp (by simpa using hnd)).1
    have hsplit : ∀ k : String, objGetD (q :: contribs) k
        = objGetD contribs k + (if k = q.1 then q.2 else 0) := by
      intro k
      by_cases hk : k = q.1
      · rw [if_pos hk]
        have hz : objGetD contribs k = 0 := by
          unfold objGetD objGet
          have hf : contribs.find? (fun p => p.1 = k) = none := by
            apply List.find?_eq_none.mpr
            intro p hp
            simp
            intro he
            exact hnotin (hk ▸ he ▸ List.mem_map.mpr ⟨p, hp, rfl⟩)
          rw [hf]
          rfl
        have hq : objGetD (q :: contribs) k = q.2 := by
          simp [objGetD, objGet, List.find?_cons, hk]
        rw [hq, hz]
        ring
      · rw [if_neg hk]
        have hq : objGetD (q :: contribs) k = objGetD contribs k := by
          simp [objGetD, objGet, List.find?_cons, Ne.symm hk]
        rw [hq]
        ring
    have hcongr : (shares.map (fun p => objGetD (q :: contribs) p.1))
        = (shares.map (fun p => objGetD contribs p.1 + (if p.1 = q.1 then q.2 else 0))) := by
      apply List.map_congr_left
      intro p _
      exact hsplit p.1
    rw [hcongr, sum_map_add, ih hnd2, sum_if_key q.1 q.2 shares hsnd]
    rw [List.map_cons, List.sum_cons]
    ring

/-- One bill leaves the roster-wide balance sum unchanged, when its share
and contribution keys all lie in the roster and it is not overpaid. -/
theorem applyBillBalance_sum (members : List Person) (bill : Bill)
    (hnd : (members.map Person.id).Nodup) (hWF : ContribWF bill)
    (hske : ∀ k ∈ (calculateBillShares bill members).map Prod.fst, k ∈ members.map Person.id)
    (hcke : ∀ k ∈ (getBillContributions bill).map Prod.fst, k ∈ members.map Person.id)
    (hle : objValsSum (getBillContributions bill)
        ≤ objValsSum (calculateBillShares bill members)) (f : String → ℚ) :
    (members.map (fun m => applyBillBalance members f bill m.id)).sum
      = (members.map (fun m => f m.id)).sum := by
  unfold applyBillBalance
  by_cases h1 : objValsSum (getBillContributions bill) < 1/100
      ∨ objValsSum (calculateBillShares bill members) < 1/100
  · rw [if_pos h1]
  · rw [if_neg h1]
    set shares := calculateBillShares bill members with hsh
    set contributions := getBillContributions bill with hco
    have hS : objValsSum shares ≥ 1/100 := by
      rcases not_or.mp h1 with ⟨_, h⟩
      linarith [not_lt.mp h]
    have hSpos : objValsSum shares > 0 := by linarith
    set paidRat := min (objValsSum contributions / objValsSum shares) 1 with hrat
    have hratval : paidRat = objValsSum contributions / objValsSum shares := by
      rw [hrat]
      apply min_eq_left
      rw [div_le_one hSpos]
      exact hle
    have hsnd : (shares.map Prod.fst).Nodup := calculateBillShares_keys_nodup bill members
    have hcnd : (contributions.map Prod.fst).Nodup := hWF
    have hkeys1 : ∀ p ∈ shares, p.1 ∈ members.map Person.id := by
      intro p hp
      exact hske p.1 (List.mem_map.mpr ⟨p, hp, rfl⟩)
    have hkeys2 : ∀ p ∈ contributions, p.1 ∈ members.map Person.id := by
      intro p hp
      exact hcke p.1 (List.mem_map.mpr ⟨p, hp, rfl⟩)
    set f1 := shares.foldl
        (fun g p => updAdd g p.1 (p.2 * paidRat - objGetD contributions p.1)) f with hf1
    have hfold : contributions.foldl
          (fun g2 p => if objHas shares p.1 then g2 else updAdd g2 p.1 (-p.2)) f1
        = contributions.foldl
            (fun g2 p => if !objHas shares p.1 then updAdd g2 p.1 (-p.2) else g2) f1 := by
      apply congrArg (fun h2 => List.foldl h2 f1 contributions)
      funext g2 p
      by_cases hh : objHas shares p.1 = true
      · simp [hh]
      · have hh2 : objHas shares p.1 = false := by revert hh; cases objHas shares p.1 <;> simp
        simp [hh2]
    rw [hfold]
    rw [sum_members_fold_cond members hnd (fun p => !objHas shares p.1) (fun p => -p.2)
          contributions f1 hkeys2]
    rw [hf1]
    rw [sum_members_fold_all members hnd
          (fun p => p.2 * paidRat - objGetD contributions p.1) shares f hkeys1]
    have hT1 : (shares.map (fun p => p.2 * paidRat - objGetD contributions p.1)).sum
        = (shares.map Prod.snd).sum * paidRat
          - (shares.map (fun p => objGetD contributions p.1)).sum := by
      rw [sum_map_sub shares (fun p => p.2 * paidRat) (fun p => objGetD contributions p.1)]
      rw [sum_map_mul shares Prod.snd paidRat]
    have hT2 : (contributions.map (fun p => if !objHas shares p.1 then -p.2 else 0)).sum
        = -(contributions.map Prod.snd).sum
          + (contributions.map (fun p => if objHas shares p.1 then p.2 else 0)).sum := by
      have hptw : (contributions.map (fun p => if !objHas shares p.1 then -p.2 else 0))
          = (contributions.map (fun p =>
              -p.2 + (if objHas shares p.1 then p.2 else 0))) := by
        apply List.map_congr_left
        intro p _
        by_cases hh : objHas shares p.1 = true
        · have : (!objHas shares p.1) = false := by rw [hh]; rfl
          rw [this, hh]
          simp
        · have hh2 : objHas shares p.1 = false := by
            revert hh; cases objHas shares p.1 <;> simp
          have : (!objHas shares p.1) = true := by rw [hh2]; rfl
          rw [this, hh2]
          simp
      rw [hptw, sum_map_add contributions (fun p => -p.2)
            (fun p => if objHas shares p.1 then p.2 else 0)]
      have : (contributions.map (fun p => -p.2)).sum = -(contributions.map Prod.snd).sum := by
        induction contributions with
        | nil => simp
        | cons p l ih =>
          rw [List.map_cons, List.sum_cons, List.map_cons, List.sum_cons, ih]
          ring
      rw [this]
    rw [hT1, hT2]
    rw [sum_getD_over_keys shares hsnd contributions hcnd]
    have hSsum : (shares.map Prod.snd).sum = objValsSum shares :=
      (objValsSum_eq_sum shares).symm
    have hCsum : (contributions.map Prod.snd).sum = objValsSum contributions :=
      (objValsSum_eq_sum contributions).symm
    rw [hSsum, hCsum, hratval]
    have hcancel : objValsSum shares * (objValsSum contributions / objValsSum shares)
        = objValsSum contributions := by
      rw [mul_comm]
      exact div_mul_cancel₀ _ (ne_of_gt hSpos)
    have : objValsSum shares * (objValsSum contributions / objValsSum shares)
        - (contributions.map (fun p => if objHas shares p.1 then p.2 else 0)).sum
        + (-objValsSum contributions
            + (contributions.map (fun p => if objHas shares p.1 then p.2 else 0)).sum) = 0 := by
      rw [hcancel]
      ring
    linarith [this]

/-- The balances accumulator before rounding. -/
def preBalances (bills : List Bill) (members : List Person) : String → ℚ :=
  (bills.filter billQualifies).foldl (applyBillBalance members) (fun _ => 0)

/-- calculateBalances reports the rounded accumulator per roster member. -/
theorem calculateBalances_eq_pre (bills : List Bill) (members : List Person) :
    calculateBalances bills members
      = members.map (fun m => ⟨m.id, m.name, round2 (preBalances bills members m.id)⟩) := rfl

/-- The conservation hypotheses of claim C7, per qualifying bill: well
formed contributions, share and contributor keys on the roster, and total
contributions not exceeding total shares. -/
def ConservesHyp (bills : List Bill) (members : List Person) : Prop :=
  ∀ b ∈ bills, billQualifies b = true →
    ContribWF b
    ∧ (∀ k ∈ (calculateBillShares b members).map Prod.fst, k ∈ members.map Person.id)
    ∧ (∀ k ∈ (getBillContributions b).map Prod.fst, k ∈ members.map Person.id)
    ∧ objValsSum (getBillContributions b) ≤ objValsSum (calculateBillShares b members)

instance (bills : List Bill) (members : List Person) : Decidable (ConservesHyp bills members) := by
  unfold ConservesHyp ContribWF
  infer_instance

/-- C7 (amended): when every qualifying bill draws its share keys and its
contributor keys from the roster and is not paid beyond its total shares,
the unrounded balances sum to exactly zero, and the reported rounded
balances sum to at most half a cent per member, a bound that can exceed the
0.01 tolerance the claim names once the roster has more than two members. -/
theorem c7_balance_conservation (bills : List Bill) (members : List Person)
    (hnd : (members.map Person.id).Nodup) (hyp : ConservesHyp bills members) :
    (members.map (fun m => preBalances bills members m.id)).sum = 0
    ∧ |((calculateBalances bills members).map BalanceOut.owes).sum|
        ≤ (members.length : ℚ) * (1/200) := by
  have hzero : (members.map (fun m => preBalances bills members m.id)).sum = 0 := by
    unfold preBalances
    have hgen : ∀ (bl : List Bill),
        (∀ b ∈ bl, billQualifies b = true →
          ContribWF b
          ∧ (∀ k ∈ (calculateBillShares b members).map Prod.fst, k ∈ members.map Person.id)
          ∧ (∀ k ∈ (getBillContributions b).map Prod.fst, k ∈ members.map Person.id)
          ∧ objValsSum (getBillContributions b) ≤ objValsSum (calculateBillShares b members)) →
        ∀ (f : String → ℚ),
          (members.map (fun m => ((bl.filter billQualifies).foldl
              (applyBillBalance members) f) m.id)).sum
            = (members.map (fun m => f m.id)).sum := by
      intro bl
      induction bl with
      | nil => intro _ f; simp
      | cons b bl ih =>
        intro hb f
        rw [List.filter_cons]
        by_cases hq : billQualifies b = true
        · rw [hq]
          simp only [if_true]
          rw [List.foldl_cons]
          rw [ih (fun x hx hqx => hb x (List.mem_cons_of_mem _ hx) hqx)
                (applyBillBalance members f b)]
          rcases hb b (List.mem_cons_self _ _) hq with ⟨hWF, hske, hcke, hle⟩
          exact applyBillBalance_sum members b hnd hWF hske hcke hle f
        · have hq2 : billQualifies b = false := by
            revert hq; cases billQualifies b <;> simp
          rw [hq2]
          simp only [Bool.false_eq_true, if_false]
          exact ih (fun x hx hqx => hb x (List.mem_cons_of_mem _ hx) hqx) f
    rw [hgen bills hyp (fun _ => 0)]
    simp
  refine ⟨hzero, ?_⟩
  rw [calculateBalances_eq_pre]
  rw [List.map_map]
  have howes : (BalanceOut.owes ∘ fun m : Person =>
      (⟨m.id, m.name, round2 (preBalances bills members m.id)⟩ : BalanceOut))
      = fun m : Person => round2 (preBalances bills members m.id) := rfl
  rw [howes]
  have hsplit : (members.map (fun m => round2 (preBalances bills members m.id)))
      = (members.map (fun m =>
          (round2 (preBalances bills members m.id) - preBalances bills members m.id)
          + preBalances bills members m.id)) := by
    apply List.map_congr_left
    intro m _
    ring
  rw [hsplit]
  rw [sum_map_add members
        (fun m => round2 (preBalances bills members m.id) - preBalances bills members m.id)
        (fun m => preBalances bills members m.id)]
  rw [hzero, add_zero]
  exact abs_sum_le_card _ (1/200) members
    (fun m _ => abs_round2_sub_le (preBalances bills members m.id))

/-- C7 witness: the theorem applied to the fully paid even bill; there the
rounded balances also sum to exactly zero. -/
theorem c7_witness :
    (([wA, wB].map (fun m => preBalances [scC4Bill] [wA, wB] m.id)).sum = 0
      ∧ |((calculateBalances [scC4Bill] [wA, wB]).map BalanceOut.owes).sum|
          ≤ (([wA, wB] : List Person).length : ℚ) * (1/200))
    ∧ ((calculateBalances [scC4Bill] [wA, wB]).map BalanceOut.owes).sum = 0 :=
  ⟨c7_balance_conservation [scC4Bill] [wA, wB] (by decide) (by with_unfolding_all decide),
   by with_unfolding_all decide⟩

/-- A fully paid bill whose custom shares cover only half its amount. -/
def overBill : Bill :=
  ⟨"s7", "Storage", 100, "2024-08-01", "other", .custom, none,
   some [("a", 100)], none, none, true, some [("a", 50)], none⟩

/-- C7 counterexample: this bill is fully paid by the code meaning of the
words (contributions reach the amount) and its only contributor is on the
roster, yet the reported balances sum to minus fifty, far outside the
tolerance, because the custom shares sum to only half the amount.  The
claim as stated is therefore false on the code. -/
theorem c7_counterexample :
    isBillFullyPaid overBill (1/100) = true
    ∧ (getBillContributions overBill).map Prod.fst = ["a"]
    ∧ calculateBalances [overBill] [wA] = [⟨"a", "Alice", -50⟩]
    ∧ |((calculateBalances [overBill] [wA]).map BalanceOut.owes).sum| > 1/100 := by
  with_unfolding_all decide

/-! ## C5: settlement records reduce the emitted amount -/

/-- The forgiven sum as a plain mapped sum. -/
theorem getForgivenBetween_some (rs : List SettlementRecord) (fid tid : String) :
    getForgivenBetween (some rs) fid tid
      = ((rs.filter (fun r => r.fromId = fid && r.toId = tid)).map
          SettlementRecord.amount).sum := by
  show (rs.filter (fun r => r.fromId = fid && r.toId = tid)).foldl
      (fun s r => s + r.amount) 0 = _
  rw [foldl_add_eq_sum SettlementRecord.amount]
  simp

/-- Appending one record adds its amount exactly when it matches the pair. -/
theorem getForgivenBetween_append (rs : List SettlementRecord) (r : SettlementRecord)
    (fid tid : String) :
    getForgivenBetween (some (rs ++ [r])) fid tid
      = getForgivenBetween (some rs) fid tid
        + (if r.fromId = fid ∧ r.toId = tid then r.amount else 0) := by
  rw [getForgivenBetween_some, getForgivenBetween_some]
  rw [List.filter_append, List.map_append, List.sum_append]
  congr 1
  by_cases h : r.fromId = fid ∧ r.toId = tid
  · rw [if_pos h]
    have : [r].filter (fun r2 => r2.fromId = fid && r2.toId = tid) = [r] := by
      simp [h.1, h.2]
    rw [this]
    simp
  · rw [if_neg h]
    have : [r].filter (fun r2 => r2.fromId = fid && r2.toId = tid) = [] := by
      simp
      intro h1 h2
      exact absurd ⟨h1, h2⟩ h
    rw [this]
    simp

/-- Swapping the pair negates the claim net. -/
theorem specNet_antisymm (records : Option (List SettlementRecord)) (edges : List Edge)
    (a b : Person) : specNet records edges b a = -(specNet records edges a b) := by
  unfold specNet
  ring

/-- The settlement claim C5 predicts after the extra record: debtor A,
creditor B, amount 60, the unchanged A-to-B breakdown and gross fields, and
a forgiven field showing the old A-to-B forgiven sum plus 40. -/
def c5Result (members : List Person) (rs : List SettlementRecord) (edges : List Edge)
    (A B : Person) : Settlement :=
  ⟨memberName members A.id, memberName members B.id, 60,
   pairDebts edges A.id B.id,
   (if (pairDebts edges B.id A.id).length > 0
     then some (pairDebts edges B.id A.id) else none),
   round2 (sumPaid (pairDebts edges A.id B.id)),
   (if (pairDebts edges B.id A.id).length > 0
     then some (round2 (sumPaid (pairDebts edges B.id A.id))) else none),
   (if getForgivenBetween (some rs) A.id B.id + 40 > 1/100
     then some (round2 (getForgivenBetween (some rs) A.id B.id + 40)) else none)⟩

/-- C5 (amended): if the pair of distinct members A and B nets to an
emitted 100 from A to B, then on the same snapshot with one extra record
from A to B of amount 40 (of either type, the type is never read) the
resolver still resolves every pair the same way except the A and B pair,
whose settlement now is c5Result: amount 60, the same breakdown and gross
fields, and a forgiven field showing the old forgiven sum plus 40 (40
itself when there were no prior records).  Both orientations are covered:
the loop visits the pair as (A, B) when the debtor id sorts first and as
(B, A) otherwise, and emits the same settlement either way. -/
theorem c5_forgiveness_reduces (bills : List Bill) (members : List Person)
    (rs : List SettlementRecord) (edges : List Edge) (A B : Person)
    (rid : String) (t : RecordType)
    (hnd : (members.map Person.id).Nodup) (hKI : KeyInjOn members)
    (hok : buildDebts bills members = Except.ok edges)
    (hA : A ∈ members) (hB : B ∈ members) (hne : A ≠ B)
    (hnet : round2 (specNet (some rs) edges A B) = 100) :
    calculateSettlementsWithBreakdown bills members (some (rs ++ [⟨rid, A.id, B.id, 40, t⟩]))
      = Except.ok ((orderedPairs members).filterMap
          (fun p => emitPair members (some (rs ++ [⟨rid, A.id, B.id, 40, t⟩])) edges p.1 p.2))
    ∧ (strLt A.id B.id = true →
        emitPair members (some (rs ++ [⟨rid, A.id, B.id, 40, t⟩])) edges A B
          = some (c5Result members rs edges A B))
    ∧ (strLt B.id A.id = true →
        emitPair members (some (rs ++ [⟨rid, A.id, B.id, 40, t⟩])) edges B A
          = some (c5Result members rs edges A B))
    ∧ (∀ X ∈ members, ∀ Y ∈ members, strLt X.id Y.id = true →
        (X, Y) ≠ (A, B) → (X, Y) ≠ (B, A) →
        emitPair members (some (rs ++ [⟨rid, A.id, B.id, 40, t⟩])) edges X Y
          = emitPair members (some rs) edges X Y) := by
  have hidne : A.id ≠ B.id := fun h => hne (id_inj_of_nodup members hnd A hA B hB h)
  set r : SettlementRecord := ⟨rid, A.id, B.id, 40, t⟩ with hr
  have hrf : r.fromId = A.id := rfl
  have hrt : r.toId = B.id := rfl
  have hramt : r.amount = 40 := rfl
  have hfAB : getForgivenBetween (some (rs ++ [r])) A.id B.id
      = getForgivenBetween (some rs) A.id B.id + 40 := by
    rw [getForgivenBetween_append, hrf, hrt, hramt]
    rw [if_pos ⟨rfl, rfl⟩]
  have hfBA : getForgivenBetween (some (rs ++ [r])) B.id A.id
      = getForgivenBetween (some rs) B.id A.id := by
    rw [getForgivenBetween_append, hrf, hrt]
    rw [if_neg (fun h => hidne h.1)]
    ring
  -- numeric facts about the old net
  set net := specNet (some rs) edges A B with hnetdef
  have hfl : ⌊net * 100 + 1/2⌋ = 10000 := by
    have h100 : ((⌊net * 100 + 1/2⌋ : ℤ) : ℚ) / 100 = 100 := hnet
    rw [div_eq_iff (by norm_num : (100 : ℚ) ≠ 0)] at h100
    have h2 : ((⌊net * 100 + 1/2⌋ : ℤ) : ℚ) = 10000 := by
      rw [h100]
      norm_num
    exact_mod_cast h2
  have hlow : net ≥ 99995/1000 := by
    have h1 : ((10000 : ℤ) : ℚ) ≤ net * 100 + 1/2 := hfl ▸ Int.floor_le _
    push_cast at h1
    linarith
  have hnew : specNet (some (rs ++ [r])) edges A B = net - 40 := by
    rw [hnetdef]
    unfold specNet
    rw [hfAB, hfBA]
    ring
  have hpos : net - 40 > 0 := by linarith
  have hround : round2 (net - 40) = 60 := by
    unfold round2
    have hshift : (net - 40) * 100 + 1/2 = (net * 100 + 1/2) - ((4000 : ℤ) : ℚ) := by
      push_cast
      ring
    rw [hshift, Int.floor_sub_int, hfl]
    norm_num
  refine ⟨?_, ?_, ?_, ?_⟩
  · unfold calculateSettlementsWithBreakdown
    rw [hok]
    show Except.ok (settleOuter members (some (rs ++ [r])) edges members ([], [])).2 = _
    rw [settleLoop_eq members (some (rs ++ [r])) edges hnd hKI]
  · intro _
    rw [emitPair_eq_specEmitPair]
    simp only [specEmitPair, c5Result]
    rw [hnew]
    have habs2 : |net - 40| > 1/100 := by
      rw [abs_of_pos hpos]
      linarith
    simp only [if_pos hpos, if_pos habs2, abs_of_pos hpos, hround, hfAB]
    rw [if_pos (by linarith : net - 40 > 1/100)]
  · intro _
    rw [emitPair_eq_specEmitPair]
    simp only [specEmitPair, c5Result]
    have hnew2 : specNet (some (rs ++ [r])) edges B A = -(net - 40) := by
      rw [specNet_antisymm, hnew]
    rw [hnew2]
    have hneg : ¬(-(net - 40) > 0) := by linarith
    have habs3 : |(-(net - 40))| > 1/100 := by
      rw [abs_neg, abs_of_pos hpos]
      linarith
    simp only [if_neg hneg, if_pos habs3, abs_neg, abs_of_pos hpos, hround, hfAB]
    rw [if_pos (by linarith : net - 40 > 1/100)]
  · intro X hX Y hY hltXY hne1 hne2
    rw [emitPair_eq_specEmitPair, emitPair_eq_specEmitPair]
    have hXY : getForgivenBetween (some (rs ++ [r])) X.id Y.id
        = getForgivenBetween (some rs) X.id Y.id := by
      rw [getForgivenBetween_append]
      rw [if_neg]
      · ring
      · intro hmatch
        have hXA : X = A := id_inj_of_nodup members hnd X hX A hA hmatch.1.symm
        have hYB : Y = B := id_inj_of_nodup members hnd Y hY B hB hmatch.2.symm
        exact hne1 (by rw [hXA, hYB])
    have hYX : getForgivenBetween (some (rs ++ [r])) Y.id X.id
        = getForgivenBetween (some rs) Y.id X.id := by
      rw [getForgivenBetween_append]
      rw [if_neg]
      · ring
      · intro hmatch
        have hYA : Y = A := id_inj_of_nodup members hnd Y hY A hA hmatch.1.symm
        have hXB : X = B := id_inj_of_nodup members hnd X hX B hB hmatch.2.symm
        exact hne2 (by rw [hXB, hYA])
    have hnetXY : specNet (some (rs ++ [r])) edges X Y = specNet (some rs) edges X Y := by
      unfold specNet
      rw [hXY, hYX]
    simp only [specEmitPair]
    rw [hnetXY]
    by_cases hsign : specNet (some rs) edges X Y > 0
    · simp only [if_pos hsign]
      rw [hXY]
    · simp only [if_neg hsign]
      rw [hYX]

/-- Coverage bill on which Alice owes Bob 100. -/
def c5Bill : Bill :=
  ⟨"f1", "Loan", 100, "2024-09-01", "other", .even, none,
   some [("b", 100)], none, some [⟨"b", "a", 100⟩], true, none, none⟩

def c5Item : SettlementBreakdown := ⟨"f1", "Loan", "other", "2024-09-01", 100, 50, 100⟩
def c5Edge : Edge := ⟨"a", "b", c5Item⟩

/-- Coverage bill on which Bob owes Alice 100, so the debtor id sorts after
the creditor id and the pair loop emits from its negative branch. -/
def c5BillR : Bill :=
  ⟨"f3", "Fence", 100, "2024-09-03", "other", .even, none,
   some [("a", 100)], none, some [⟨"a", "b", 100⟩], true, none, none⟩

def c5ItemR : SettlementBreakdown := ⟨"f3", "Fence", "other", "2024-09-03", 100, 50, 100⟩
def c5EdgeR : Edge := ⟨"b", "a", c5ItemR⟩

/-- C5 witness: the claim scenario with no prior records, in both
orientations.  Alice owes Bob 100 and a forgiven record of 40 from Alice to
Bob yields amount 60 with forgiven 40; symmetrically Bob owes Alice 100 and
a paid record of 40 from Bob to Alice yields amount 60 with forgiven 40,
through the per-pair rule and through the full resolver. -/
theorem c5_witness :
    emitPair [wA, wB] (some ([] ++ [⟨"w5", wA.id, wB.id, 40, RecordType.forgivenKind⟩]))
        [c5Edge] wA wB
      = some (c5Result [wA, wB] [] [c5Edge] wA wB)
    ∧ emitPair [wA, wB] (some ([] ++ [⟨"w6", wB.id, wA.id, 40, RecordType.paidKind⟩]))
        [c5EdgeR] wA wB
      = some (c5Result [wA, wB] [] [c5EdgeR] wB wA)
    ∧ calculateSettlementsWithBreakdown [c5Bill] [wA, wB]
        (some [⟨"w5", "a", "b", 40, RecordType.forgivenKind⟩])
      = Except.ok [⟨"Alice", "Bob", 60, [c5Item], none, 100, none, some 40⟩]
    ∧ calculateSettlementsWithBreakdown [c5BillR] [wA, wB]
        (some [⟨"w6", "b", "a", 40, RecordType.paidKind⟩])
      = Except.ok [⟨"Bob", "Alice", 60, [c5ItemR], none, 100, none, some 40⟩] :=
  ⟨(c5_forgiveness_reduces [c5Bill] [wA, wB] [] [c5Edge] wA wB "w5" RecordType.forgivenKind
      (by decide) (by decide) (by with_unfolding_all decide) (by decide) (by decide)
      (by decide) (by with_unfolding_all decide)).2.1 (by decide),
   (c5_forgiveness_reduces [c5BillR] [wA, wB] [] [c5EdgeR] wB wA "w6" RecordType.paidKind
      (by decide) (by decide) (by with_unfolding_all decide) (by decide) (by decide)
      (by decide) (by with_unfolding_all decide)).2.2.1 (by decide),
   by with_unfolding_all decide,
   by with_unfolding_all decide⟩

/-- Coverage bill on which Alice owes Bob 110. -/
def fgBill : Bill :=
  ⟨"f2", "Deck", 110, "2024-09-02", "other", .even, none,
   some [("b", 110)], none, some [⟨"b", "a", 110⟩], true, none, none⟩

def fgItem : SettlementBreakdown := ⟨"f2", "Deck", "other", "2024-09-02", 110, 55, 110⟩

/-- C5 counterexample: with a prior record of 10 from Alice to Bob the
resolver emits Alice owes Bob 100; adding the record of 40 reduces the
amount to 60 as claimed, but the forgiven field becomes 50, not 40, so the
claim as stated is false on the code. -/
theorem c5_counterexample :
    calculateSettlementsWithBreakdown [fgBill] [wA, wB]
        (some [⟨"p1", "a", "b", 10, RecordType.paidKind⟩])
      = Except.ok [⟨"Alice", "Bob", 100, [fgItem], none, 110, none, some 10⟩]
    ∧ calculateSettlementsWithBreakdown [fgBill] [wA, wB]
        (some [⟨"p1", "a", "b", 10, RecordType.paidKind⟩,
               ⟨"p2", "a", "b", 40, RecordType.forgivenKind⟩])
      = Except.ok [⟨"Alice", "Bob", 60, [fgItem], none, 110, none, some 50⟩]
    ∧ (50 : ℚ) ≠ 40 := by
  with_unfolding_all decide

/-! ## C6: contribution extractor -/

/-- C6 amended rule: a present paidContributions object is returned
verbatim even when empty (an empty JS object is truthy); only an absent one
falls through to a truthy paidBy. -/
def amendedContributionsC6 (bill : Bill) : Obj :=
  match bill.paidContributions with
  | some m => m
  | none => if strTruthy bill.paidBy then [(bill.paidBy.getD "", bill.amount)] else []

/-- The fallback map of the claim text: the single-payer entry when paidBy
is set, else empty. -/
def fallbackC6 (bill : Bill) : Obj :=
  match bill.paidBy with
  | some p => [(p, bill.amount)]
  | none => []

/-- Claim C6 as written: verbatim only when present and non-empty,
otherwise the paidBy fallback. -/
def claimContributionsC6 (bill : Bill) : Obj :=
  match bill.paidContributions with
  | some m => if m.isEmpty then fallbackC6 bill else m
  | none => fallbackC6 bill

/-- C6 (amended): the contribution extractor returns a present
paidContributions map verbatim, empty or not; with it absent it returns the
single-payer map for a truthy paidBy, and the empty map otherwise. -/
theorem c6_contribution_extractor (bill : Bill) :
    getBillContributions bill = amendedContributionsC6 bill := by
  unfold getBillContributions amendedContributionsC6 strTruthy
  cases bill.paidContributions with
  | some m => rfl
  | none =>
    cases bill.paidBy with
    | none => rfl
    | some p =>
      by_cases he : p.isEmpty = true
      · simp [he]
      · have he2 : p.isEmpty = false := by revert he; cases p.isEmpty <;> simp
        simp [he2]

/-- Bill with a present but empty paidContributions object and a set payer. -/
def emptyPCBill : Bill :=
  ⟨"c6", "Trash", 60, "2024-10-01", "other", .even, some "a",
   some [], none, none, true, none, none⟩

/-- C6 counterexample: with paidContributions present but empty and paidBy
set, the code returns the empty map, while the claim says it falls through
to the paidBy rule. -/
theorem c6_counterexample :
    emptyPCBill.paidContributions = some []
    ∧ emptyPCBill.paidBy = some "a"
    ∧ getBillContributions emptyPCBill = []
    ∧ claimContributionsC6 emptyPCBill = [("a", 60)]
    ∧ getBillContributions emptyPCBill ≠ claimContributionsC6 emptyPCBill := by
  with_unfolding_all decide

/-! ## C8: payment status evaluator -/

/-- The totalPaid the status evaluator computes from paidContributions. -/
def totalPaidOf (bill : Bill) : ℚ := objValsSum (bill.paidContributions.getD [])

/-- C8 amended status rule: paid iff isPaid; else partial exactly when
paidContributions is present and 0 < totalPaid < amount with strict exact
comparisons and no epsilon; else overdue exactly when the due-date instant
is before now; else pending. -/
def amendedStatusC8 (dueBeforeNow : String → Bool) (bill : Bill) : BillStatus :=
  if bill.isPaid then .paid
  else if bill.paidContributions.isSome ∧ 0 < totalPaidOf bill ∧ totalPaidOf bill < bill.amount
    then .partiallyPaid
  else if dueBeforeNow bill.dueDate then .overdue
  else .pending

/-- Claim C8 as written, reading the epsilon tolerance into the partial
window. -/
def claimStatusC8 (dueBeforeNow : String → Bool) (bill : Bill) : BillStatus :=
  if bill.isPaid then .paid
  else if 1/100 < totalPaidOf bill ∧ totalPaidOf bill < bill.amount - 1/100
    then .partiallyPaid
  else if dueBeforeNow bill.dueDate then .overdue
  else .pending

/-- C8 (amended): the status evaluator matches the amended rule for every
bill and every due-date oracle. -/
theorem c8_status_evaluator (dueBeforeNow : String → Bool) (bill : Bill) :
    getBillStatus dueBeforeNow bill = amendedStatusC8 dueBeforeNow bill := by
  unfold getBillStatus amendedStatusC8 totalPaidOf
  by_cases hp : bill.isPaid = true
  · rw [if_pos hp, if_pos hp]
  · rw [if_neg hp, if_neg hp]
    cases bill.paidContributions with
    | none => simp
    | some pc =>
      simp only [Option.isSome_some, Option.getD_some, true_and]

/-- Bill with a half-cent payment recorded. -/
def tinyPayBill : Bill :=
  ⟨"c8", "Phone", 100, "2024-11-01", "internet", .even, none,
   some [("a", 1/200)], none, none, false, none, none⟩

/-- C8 counterexample: a half-cent payment is below the epsilon the claim
reads into the partial window, so the claim says the status is pending, but
the code compares with exact zero and reports partial. -/
theorem c8_counterexample :
    getBillStatus (fun _ => false) tinyPayBill = BillStatus.partiallyPaid
    ∧ claimStatusC8 (fun _ => false) tinyPayBill = BillStatus.pending
    ∧ getBillStatus (fun _ => false) tinyPayBill
        ≠ claimStatusC8 (fun _ => false) tinyPayBill := by
  with_unfolding_all decide

/-! ## C9: behaviour on invalid snapshots -/

/-- A qualifying bill whose coverage allocation names an id that is not on
the roster. -/
def ghostCovBill : Bill :=
  ⟨"c9", "Paint", 50, "2024-12-01", "other", .even, none,
   some [("a", 50)], none, some [⟨"a", "nobody", 25⟩], true, none, none⟩

/-- C9: the balance aggregator completes on the invalid snapshot and a
settlement record naming an unknown id contributes zero, but the settlement
resolver throws a TypeError on a coverage allocation whose covered id is
not on the roster, contradicting the no-exception claim. -/
theorem c9_invalid_snapshot :
    calculateSettlementsWithBreakdown [ghostCovBill] [wA, wB] none
      = Except.error "TypeError: cannot read properties of undefined"
    ∧ calculateBalances [ghostCovBill] [wA, wB] = [⟨"a", "Alice", -25⟩, ⟨"b", "Bob", 25⟩]
    ∧ calculateSettlementsWithBreakdown [c5Bill] [wA, wB]
        (some [⟨"z", "zed", "b", 30, RecordType.paidKind⟩])
      = calculateSettlementsWithBreakdown [c5Bill] [wA, wB] (some []) := by
  with_unfolding_all decide

/-! ## C10: calculateSettlements is the projection of the breakdown -/

/-- C10: calculateSettlements equals the breakdown resolver with each
settlement projected to its from, to and amount fields, preserving order
and length. -/
theorem c10_simple_projection (bills : List Bill) (members : List Person)
    (records : Option (List SettlementRecord)) :
    calculateSettlements bills members records
      = Except.map (fun l => l.map toSimple)
          (calculateSettlementsWithBreakdown bills members records)
    ∧ (∀ l, calculateSettlementsWithBreakdown bills members records = Except.ok l →
        calculateSettlements bills members records
          = Except.ok (l.map (fun s => (⟨s.fromName, s.toName, s.amount⟩ : SimpleSettlement)))
        ∧ (l.map toSimple).length = l.length) := by
  constructor
  · unfold calculateSettlements
    cases h : calculateSettlementsWithBreakdown bills members records with
    | error e => rfl
    | ok l => rfl
  · intro l hl
    constructor
    · unfold calculateSettlements
      rw [hl]
      rfl
    · simp

/-- C10 witness: on the coverage bill the projection drops exactly the
breakdown fields of the one emitted settlement. -/
theorem c10_witness :
    calculateSettlements [c5Bill] [wA, wB] none = Except.ok [⟨"Alice", "Bob", 100⟩]
    ∧ calculateSettlements [c5Bill] [wA, wB] none
      = Except.ok ([(⟨"Alice", "Bob", 100, [c5Item], none, 100, none, none⟩ : Settlement)].map
          (fun s => (⟨s.fromName, s.toName, s.amount⟩ : SimpleSettlement))) :=
  ⟨by with_unfolding_all decide,
   ((c10_simple_projection [c5Bill] [wA, wB] none).2
      [⟨"Alice", "Bob", 100, [c5Item], none, 100, none, none⟩]
      (by with_unfolding_all decide)).1⟩

end HouseholdBills
